import Mathlib

/-!
Shallow embedding of the view/index layer of the `cait` package
(ArchivesSpace tooling): the normalized accession/digital-object views,
the directory loaders, the accession title index builder, and the
navigation renderer. Go strings are Lean strings (byte-wise order and
codepoint order agree for UTF-8), Go maps are association lists with
Go insert/replace semantics, Go's two-value returns are pairs with an
`Option String` error component.
-/

/-- The navigation element: previous/this/next links used in paging
results or browsable record lists (struct `NavElementView`). -/
structure NavElementView where
  ThisLabel : String
  ThisURI : String
  PrevURI : String
  PrevLabel : String
  NextURI : String
  NextLabel : String
  Weight : Int
deriving DecidableEq, Repr, Inhabited

/-- Go map lookup on an association list: the first binding wins
(bindings are kept unique by `goInsert`). -/
def mapGet {α : Type} (m : List (String × α)) (k : String) : Option α :=
  match m with
  | [] => none
  | (k', v) :: rest => if k' = k then some v else mapGet rest k

/-- Go map assignment `m[k] = v`: replaces the binding if the key is
present, otherwise adds one. -/
def goInsert {α : Type} (m : List (String × α)) (k : String) (v : α) : List (String × α) :=
  match m with
  | [] => [(k, v)]
  | (k', v') :: rest => if k' = k then (k', v) :: rest else (k', v') :: goInsert rest k v

/-- In-place mutation of the entry stored under `k` (Go writes through
the `*NavElementView` pointer held in the map); no-op if absent. -/
def mapModify {α : Type} (m : List (String × α)) (k : String) (f : α → α) : List (String × α) :=
  match m with
  | [] => []
  | (k', v) :: rest => if k' = k then (k', f v) :: rest else (k', v) :: mapModify rest k f

theorem mapGet_goInsert {α : Type} (m : List (String × α)) (k k' : String) (v : α) :
    mapGet (goInsert m k v) k' = if k = k' then some v else mapGet m k' := by
  induction m with
  | nil => simp [goInsert, mapGet]
  | cons hd tl ih =>
    obtain ⟨k₀, v₀⟩ := hd
    by_cases h0 : k₀ = k
    · subst h0
      by_cases h1 : k₀ = k'
      · subst h1; simp [goInsert, mapGet]
      · simp [goInsert, mapGet, h1]
    · by_cases h1 : k₀ = k'
      · subst h1
        have : ¬ k = k₀ := fun h => h0 h.symm
        simp [goInsert, mapGet, h0, this]
      · simp [goInsert, mapGet, h0, h1, ih]

theorem mapGet_mapModify {α : Type} (m : List (String × α)) (k k' : String) (f : α → α) :
    mapGet (mapModify m k f) k' =
      if k = k' then (mapGet m k').map f else mapGet m k' := by
  induction m with
  | nil => simp [mapModify, mapGet]
  | cons hd tl ih =>
    obtain ⟨k₀, v₀⟩ := hd
    by_cases h0 : k₀ = k
    · subst h0
      by_cases h1 : k₀ = k'
      · subst h1; simp [mapModify, mapGet]
      · simp [mapModify, mapGet, h1]
    · by_cases h1 : k₀ = k'
      · subst h1
        have : ¬ k = k₀ := fun h => h0 h.symm
        simp [mapModify, mapGet, h0, this]
      · simp [mapModify, mapGet, h0, h1, ih]

/-!  ## The navigation renderer (`NavElementView.String`) -/

/-- Literal pieces of the three markup fragments (the Go format strings). -/
def prevOpen : String := "<a class=\"prev-item\" href=\""

def prevMid : String := "\" title=\""

def prevClose : String := "\">prev</a>"

def thisOpen : String := "<span class=\"this-item\" data-uri=\""

def thisMid : String := "\" data-title=\""

def thisMid2 : String := "\">"

def thisClose : String := "</span>"

def nextOpen : String := "<a class=\"next-item\" href=\""

def nextMid : String := "\" title=\""

def nextClose : String := "\">next</a>"

/-- The previous-link fragment produced by `fmt.Sprintf` in `String()`. -/
def prevFragment (nav : NavElementView) : String :=
  prevOpen ++ nav.PrevURI ++ prevMid ++ nav.PrevLabel ++ prevClose

/-- The current-marker fragment produced by `fmt.Sprintf` in `String()`. -/
def thisFragment (nav : NavElementView) : String :=
  thisOpen ++ nav.ThisURI ++ thisMid ++ nav.ThisLabel ++ thisMid2 ++ nav.ThisLabel ++ thisClose

/-- The next-link fragment produced by `fmt.Sprintf` in `String()`. -/
def nextFragment (nav : NavElementView) : String :=
  nextOpen ++ nav.NextURI ++ nextMid ++ nav.NextLabel ++ nextClose

/-- Go's `strings.Trim(s, " ")`: removes leading and trailing space
characters (only spaces, only at the two ends). -/
def trimSpaces (s : String) : String :=
  ⟨((s.data.dropWhile (· == ' ')).reverse.dropWhile (· == ' ')).reverse⟩

/-- `(nav *NavElementView) String()`: emits each fragment when its URI is
non-empty, formats them with `fmt.Sprintf("%s %s %s", prev, this, next)`
and trims surrounding spaces. -/
def NavElementView.render (nav : NavElementView) : String :=
  let prev := if nav.PrevURI ≠ "" then prevFragment nav else ""
  let cur := if nav.ThisURI ≠ "" then thisFragment nav else ""
  let next := if nav.NextURI ≠ "" then nextFragment nav else ""
  trimSpaces (prev ++ " " ++ cur ++ " " ++ next)

/-!  ## Byte-wise string order (Go `sort.Strings`)

Go compares strings byte-wise; on UTF-8 encodings byte order and
codepoint order coincide, so the order is char-list lexicographic. -/

/-- Lexicographic comparison of char lists (Go byte-wise string `<=`). -/
def charListLe : List Char → List Char → Bool
  | [], _ => true
  | _ :: _, [] => false
  | a :: as, b :: bs => if a < b then true else if b < a then false else charListLe as bs

/-- Go's string ordering, as a relation on Lean strings. -/
def strLe (a b : String) : Prop := charListLe a.data b.data = true

instance : DecidableRel strLe := fun a b => by unfold strLe; infer_instance

/-- `sort.Strings`: the unique `strLe`-sorted rearrangement of the slice. -/
def sortStrings (l : List String) : List String := List.insertionSort strLe l

/-!  ## The accession title index builder (`MakeAccessionTitleIndex`)

The file-system walk is embedded as a list of visited paths together
with the outcome of `ioutil.ReadFile` and `json.Unmarshal` on each:
`readOk` tells whether the read succeeded, `parseOk` whether `Unmarshal`
returned a nil error, and `decoded` holds the contents of the projection
struct after the `Unmarshal` call (Go leaves already-decoded fields set
when `Unmarshal` fails partway). -/

/-- The anonymous projection struct `{Title, URI, JSONModel}`. -/
structure AccessionProj where
  Title : String
  URI : String
  JSONModel : String
deriving DecidableEq, Repr, Inhabited

/-- One file visited by `filepath.Walk`, with its read/parse outcomes. -/
structure WalkFile where
  path : String
  readOk : Bool
  parseOk : Bool
  decoded : AccessionProj
deriving DecidableEq, Repr

/-- Go `strings.HasSuffix` (byte suffix = char-list suffix). -/
def hasSuffix (s suffix : String) : Bool := suffix.data.isSuffixOf s.data

abbrev NavMap := List (String × NavElementView)

/-- The composite sort key `fmt.Sprintf("%s|%s", Title, URI)`. -/
def accessionKey (r : AccessionProj) : String := r.Title ++ "|" ++ r.URI

/-- The `NavElementView` created for a kept record (`new` zero value with
`ThisLabel`/`ThisURI` assigned). -/
def freshNav (r : AccessionProj) : NavElementView :=
  { ThisLabel := r.Title, ThisURI := r.URI, PrevURI := "", PrevLabel := "",
    NextURI := "", NextLabel := "", Weight := 0 }

/-- The body of the walk callback: skip non-`.json` paths, skip unreadable
files, log (but do not skip) parse failures, and record the decoded
struct whenever its `JSONModel` is exactly `"accession"`. -/
def walkStep (st : NavMap × List String) (f : WalkFile) : NavMap × List String :=
  if hasSuffix f.path ".json" then
    if !f.readOk then st
    else
      if f.decoded.JSONModel = "accession" then
        (goInsert st.1 f.decoded.URI (freshNav f.decoded),
         st.2 ++ [accessionKey f.decoded])
      else st
  else st

/-- `filepath.Walk` over the whole tree: the title index keyed by URI and
the slice `titlesWithURI`, accumulated in visit order. -/
def walkAll (files : List WalkFile) : NavMap × List String :=
  files.foldl walkStep ([], [])

/-- The records the walk actually keeps: `.json` path, readable file,
decoded `JSONModel == "accession"` (parse success is not consulted). -/
def keptAccessions (files : List WalkFile) : List AccessionProj :=
  files.filterMap fun f =>
    if hasSuffix f.path ".json" && f.readOk && (f.decoded.JSONModel == "accession")
    then some f.decoded else none

/-- The `extractURI` closure: the substring after the last `"|"`
(`strings.LastIndex` plus slicing; the whole string when no `"|"`). -/
def extractURI (s : String) : String :=
  ⟨(s.data.reverse.takeWhile (· != '|')).reverse⟩

/-- Write the prev fields through the pointer stored under `k`. -/
def setPrevFields (m : NavMap) (k lbl uri : String) : NavMap :=
  mapModify m k fun nav => { nav with PrevLabel := lbl, PrevURI := uri }

/-- Write the next fields through the pointer stored under `k`. -/
def setNextFields (m : NavMap) (k lbl uri : String) : NavMap :=
  mapModify m k fun nav => { nav with NextLabel := lbl, NextURI := uri }

/-- The `i > 0` half of a linking iteration: populate the prev fields of
the entry under `uri` from the entry found under the previous sorted
key's extracted URI (only when that lookup succeeds). -/
def linkPrevPhase (sorted : List String) (m : NavMap) (i : Nat) (uri : String) : NavMap :=
  if 0 < i then
    match mapGet m (extractURI (sorted.getD (i - 1) "")) with
    | some prev => setPrevFields m uri prev.ThisLabel prev.ThisURI
    | none => m
  else m

/-- The `i < lastI` half of a linking iteration: populate the next fields
from the entry found under the next sorted key's extracted URI. -/
def linkNextPhase (sorted : List String) (m1 : NavMap) (i : Nat) (uri : String) : NavMap :=
  if i < sorted.length - 1 then
    match mapGet m1 (extractURI (sorted.getD (i + 1) "")) with
    | some next => setNextFields m1 uri next.ThisLabel next.ThisURI
    | none => m1
  else m1

/-- One iteration of the linking loop at index `i`: look up this record's
entry (`thisOk`), then run the prev phase followed by the next phase. -/
def linkStep (sorted : List String) (m : NavMap) (i : Nat) : NavMap :=
  let uri := extractURI (sorted.getD i "")
  match mapGet m uri with
  | none => m
  | some _ => linkNextPhase sorted (linkPrevPhase sorted m i uri) i uri

/-- The `for i, val := range titlesWithURI` loop: indices `0..len-1` in
order. -/
def linkAll (sorted : List String) (m : NavMap) : NavMap :=
  (List.range sorted.length).foldl (linkStep sorted) m

/-- `MakeAccessionTitleIndex`: walk, fail on an empty aggregate, sort the
composite keys, link neighbours, return the map keyed by URI. -/
def MakeAccessionTitleIndex (files : List WalkFile) : Except String NavMap :=
  let st := walkAll files
  if st.2.length = 0 then .error "No titles found"
  else if st.1.length = 0 then .error "title index empty"
  else .ok (linkAll (sortStrings st.2) st.1)

/-- The sorted composite-key slice of a run. -/
def sortedTitles (files : List WalkFile) : List String :=
  sortStrings (walkAll files).2

/-- The kept records arranged by their composite keys (the spec's "sorted
order" of the index entries). -/
def sortedKeptRecs (files : List WalkFile) : List AccessionProj :=
  List.insertionSort (fun r s => strLe (accessionKey r) (accessionKey s)) (keptAccessions files)

/-- The `ThisLabel`/`ThisURI` projection of an optional entry (the two
fields the linking pass reads but never writes). -/
def thisPart (o : Option NavElementView) : Option (String × String) :=
  o.map fun v => (v.ThisLabel, v.ThisURI)

/-- The phase-1 entry stored under the `j`-th extracted URI. -/
def navAt (m0 : NavMap) (us : List String) (j : Nat) : NavElementView :=
  (mapGet m0 (us.getD j "")).getD default

/-- What the linking loop turns the `j`-th entry into: prev fields from
the neighbour below (unless first), next fields from the neighbour above
(unless last), `This` fields untouched. -/
def linkedNav (m0 : NavMap) (us : List String) (len j : Nat) : NavElementView :=
  let v := navAt m0 us j
  { v with
    PrevURI := if j = 0 then v.PrevURI else (navAt m0 us (j - 1)).ThisURI,
    PrevLabel := if j = 0 then v.PrevLabel else (navAt m0 us (j - 1)).ThisLabel,
    NextURI := if j + 1 < len then (navAt m0 us (j + 1)).ThisURI else v.NextURI,
    NextLabel := if j + 1 < len then (navAt m0 us (j + 1)).ThisLabel else v.NextLabel }

/-- The invariant claimed of a successfully returned title index: every
entry's `ThisURI` is its map key; neighbours in sorted order point at
each other; the first entry has no prev link and the last no next link. -/
def titleIndexLinked (files : List WalkFile) (m : NavMap) : Prop :=
  (∀ k v, mapGet m k = some v → v.ThisURI = k) ∧
  (∀ i, i + 1 < (sortedKeptRecs files).length →
    ∃ v w, mapGet m ((sortedKeptRecs files).getD i default).URI = some v ∧
      mapGet m ((sortedKeptRecs files).getD (i + 1) default).URI = some w ∧
      v.NextURI = w.ThisURI ∧ w.PrevURI = v.ThisURI) ∧
  (sortedKeptRecs files ≠ [] →
    (∃ v, mapGet m ((sortedKeptRecs files).getD 0 default).URI = some v ∧ v.PrevURI = "") ∧
    (∃ v, mapGet m ((sortedKeptRecs files).getD ((sortedKeptRecs files).length - 1) default).URI = some v ∧
      v.NextURI = ""))

/-!  ## The record model and the reference resolver

Modelled from the spec: the `Subject`, `DigitalObject` and `Accession`
struct shapes (the struct declarations live outside this file's source;
§3/§6 of the design give their fields). An accession's `Instances` entry
may carry a `digital_object` sub-object, embedded here as the string map
obtained from the generic re-encode/decode step; a `Subjects` entry may
carry a `ref` URI. -/

/-- Modelled from the spec: a subject record `{URI, Title, ...}`. -/
structure Subject where
  URI : String
  Title : String
deriving DecidableEq, Repr

/-- Modelled from the spec: one file version of a digital object. -/
structure FileVersion where
  FileURI : String
deriving DecidableEq, Repr

/-- Modelled from the spec: a digital-object record. -/
structure DigitalObject where
  URI : String
  Title : String
  Publish : Bool
  FileVersions : List FileVersion
deriving DecidableEq, Repr

/-- Modelled from the spec: an extent carries its physical details. -/
structure Extent where
  PhysicalDetails : String
deriving DecidableEq, Repr

/-- Modelled from the spec: a loosely-typed `Instances` entry; when the
`"digital_object"` key is present, `digital_object` holds the string map
the generic marshal/unmarshal step produces from it. -/
structure Instance where
  digital_object : Option (List (String × String))
deriving DecidableEq, Repr

/-- Modelled from the spec: a `Subjects` entry holding an optional `ref`. -/
structure SubjectRef where
  ref : Option String
deriving DecidableEq, Repr

/-- Modelled from the spec: the accession fields the resolver reads. -/
structure Accession where
  Title : String
  URI : String
  ContentDescription : String
  ConditionDescription : String
  AccessionDate : String
  CreatedBy : String
  CreateTime : String
  LastModifiedBy : String
  UserMTime : String
  Extents : List Extent
  Instances : List Instance
  Subjects : List SubjectRef
deriving DecidableEq, Repr

/-- `NormalizedDigitalObjectView`. -/
structure NormalizedDigitalObjectView where
  URI : String
  Title : String
  Publish : Bool
  FileURIs : List String
deriving DecidableEq, Repr

/-- `NormalizedAccessionView`. -/
structure NormalizedAccessionView where
  URI : String
  Title : String
  ContentDescription : String
  ConditionDescription : String
  Subjects : List String
  Extents : List String
  RelatedResources : List String
  RelatedAccessions : List String
  DigitalObjects : List NormalizedDigitalObjectView
  LinkedAgents : List String
  AccessionDate : String
  CreatedBy : String
  Created : String
  LastModifiedBy : String
  LastModified : String
deriving DecidableEq, Repr

/-- The `range o.FileVersions` loop: append each non-empty `FileURI`. -/
def fileVersionsLoop (items : List FileVersion) (acc : List String) : List String :=
  match items with
  | [] => acc
  | fv :: rest =>
    if fv.FileURI ≠ "" then fileVersionsLoop rest (acc ++ [fv.FileURI])
    else fileVersionsLoop rest acc

/-- `(o *DigitalObject) NormalizeView()`. -/
def DigitalObject.NormalizeView (o : DigitalObject) : NormalizedDigitalObjectView :=
  { URI := o.URI, Title := o.Title, Publish := o.Publish,
    FileURIs := fileVersionsLoop o.FileVersions [] }

/-- The `range a.Extents` loop: append each `PhysicalDetails`. -/
def extentsLoop (items : List Extent) (acc : List String) : List String :=
  match items with
  | [] => acc
  | e :: rest => extentsLoop rest (acc ++ [e.PhysicalDetails])

/-- The `range a.Instances` loop: when the entry carries a
`digital_object` whose re-encoded map holds a `ref` that resolves in the
supplied map, append the resolved object's normalized view. -/
def instancesLoop (digitalObjects : String → Option DigitalObject)
    (items : List Instance) (acc : List NormalizedDigitalObjectView) :
    List NormalizedDigitalObjectView :=
  match items with
  | [] => acc
  | item :: rest =>
    match item.digital_object with
    | some kv =>
      match mapGet kv "ref" with
      | some ref =>
        match digitalObjects ref with
        | some obj => instancesLoop digitalObjects rest (acc ++ [obj.NormalizeView])
        | none => instancesLoop digitalObjects rest acc
      | none => instancesLoop digitalObjects rest acc
    | none => instancesLoop digitalObjects rest acc

/-- The `range a.Subjects` loop: append the resolved subject's title when
the entry's `ref` is present and found in the map. -/
def subjectsLoop (subjects : String → Option Subject)
    (items : List SubjectRef) (acc : List String) : List String :=
  match items with
  | [] => acc
  | item :: rest =>
    match item.ref with
    | some ref =>
      match subjects ref with
      | some rec => subjectsLoop subjects rest (acc ++ [rec.Title])
      | none => subjectsLoop subjects rest acc
    | none => subjectsLoop subjects rest acc

/-- `(a *Accession) NormalizeView(subjects, digitalObjects)`: copies the
scalar fields, resolves extents/instances/subjects, and ends with
`return v, nil` (second component: the always-nil error). -/
def Accession.NormalizeView (a : Accession) (subjects : String → Option Subject)
    (digitalObjects : String → Option DigitalObject) :
    NormalizedAccessionView × Option String :=
  ({ URI := a.URI, Title := a.Title,
     ContentDescription := a.ContentDescription,
     ConditionDescription := a.ConditionDescription,
     AccessionDate := a.AccessionDate, CreatedBy := a.CreatedBy,
     Created := a.CreateTime, LastModifiedBy := a.LastModifiedBy,
     LastModified := a.UserMTime,
     Extents := extentsLoop a.Extents [],
     RelatedResources := [], RelatedAccessions := [], LinkedAgents := [],
     DigitalObjects := instancesLoop digitalObjects a.Instances [],
     Subjects := subjectsLoop subjects a.Subjects [] }, none)

/-- The digital-object `ref` an `Instances` entry yields, if any. -/
def doRefOf (inst : Instance) : Option String :=
  inst.digital_object.bind fun kv => mapGet kv "ref"

/-!  ## The directory loaders

A directory is embedded as the outcome of `ioutil.ReadDir` — either an
error cause or the file list — and each file carries the outcome of
`ioutil.ReadFile` and, when readable, of `json.Unmarshal` on its bytes.
Go's `(result, error)` pair is an `Option` pair: exactly one side is set. -/

/-- One directory entry with its read and parse outcomes for records of
type `α`. -/
structure SrcFile (α : Type) where
  name : String
  read : Except String (Except String α)

/-- `path.Join(dname, fname)` for already-clean paths. -/
def pathJoin (dname fname : String) : String := dname ++ "/" ++ fname

/-- A Go two-value `(result, err)` return. -/
abbrev GoRet (α : Type) := Option α × Option String

/-- The `range dir` loop of `MakeSubjectList`. -/
def subjectListLoop (dname : String) : List (SrcFile Subject) → List Subject → GoRet (List Subject)
  | [], acc => (some acc, none)
  | f :: rest, acc =>
    match f.read with
    | .error e => (none, some ("Can't read " ++ pathJoin dname f.name ++ ", " ++ e))
    | .ok (.error e) => (none, some ("Can't parse subject " ++ pathJoin dname f.name ++ ", " ++ e))
    | .ok (.ok subject) => subjectListLoop dname rest (acc ++ [subject])

/-- `MakeSubjectList(dname)`. -/
def MakeSubjectList (dname : String) (dir : Except String (List (SrcFile Subject))) :
    GoRet (List Subject) :=
  match dir with
  | .error e => (none, some ("Can't read subjects from " ++ dname ++ ", " ++ e))
  | .ok files => subjectListLoop dname files []

/-- The `range dir` loop of `MakeSubjectMap` (map keyed by `subject.URI`). -/
def subjectMapLoop (dname : String) : List (SrcFile Subject) → List (String × Subject) →
    GoRet (List (String × Subject))
  | [], acc => (some acc, none)
  | f :: rest, acc =>
    match f.read with
    | .error e => (none, some ("Can't read " ++ pathJoin dname f.name ++ ", " ++ e))
    | .ok (.error e) => (none, some ("Can't parse subject " ++ pathJoin dname f.name ++ ", " ++ e))
    | .ok (.ok subject) => subjectMapLoop dname rest (goInsert acc subject.URI subject)

/-- `MakeSubjectMap(dname)`. -/
def MakeSubjectMap (dname : String) (dir : Except String (List (SrcFile Subject))) :
    GoRet (List (String × Subject)) :=
  match dir with
  | .error e => (none, some ("Can't read subjects from " ++ dname ++ ", " ++ e))
  | .ok files => subjectMapLoop dname files []

/-- The `range dir` loop of `MakeDigitalObjectMap` (note the copy-pasted
"Can't parse subject" wording in the source's parse error). -/
def digitalObjectMapLoop (dname : String) : List (SrcFile DigitalObject) →
    List (String × DigitalObject) → GoRet (List (String × DigitalObject))
  | [], acc => (some acc, none)
  | f :: rest, acc =>
    match f.read with
    | .error e => (none, some ("Can't read " ++ pathJoin dname f.name ++ ", " ++ e))
    | .ok (.error e) => (none, some ("Can't parse subject " ++ pathJoin dname f.name ++ ", " ++ e))
    | .ok (.ok dobj) => digitalObjectMapLoop dname rest (goInsert acc dobj.URI dobj)

/-- `MakeDigitalObjectMap(dname)`. -/
def MakeDigitalObjectMap (dname : String) (dir : Except String (List (SrcFile DigitalObject))) :
    GoRet (List (String × DigitalObject)) :=
  match dir with
  | .error e => (none, some ("Can't read Digital Objects from " ++ dname ++ ", " ++ e))
  | .ok files => digitalObjectMapLoop dname files []

/-- A file is loadable when both its read and its parse succeed. -/
def fileOK {α : Type} (f : SrcFile α) : Prop := ∃ rec, f.read = .ok (.ok rec)

/-!  ## Concrete inputs used by witnesses and counterexamples -/

/-- A `NavElementView` with an empty `ThisURI` but non-empty prev/next. -/
def navMidGap : NavElementView :=
  { ThisLabel := "T", ThisURI := "", PrevURI := "/p", PrevLabel := "PL",
    NextURI := "/n", NextLabel := "NL", Weight := 0 }

/-- A `.json` file whose `Unmarshal` fails partway yet leaves
`jsonmodel_type: "accession"` and `uri` decoded (Go fills fields already
seen before erroring, e.g. on `{"jsonmodel_type":"accession","uri":"/x","title":3}`). -/
def badParseFile : WalkFile :=
  { path := "a.json", readOk := true, parseOk := false,
    decoded := { Title := "", URI := "/x", JSONModel := "accession" } }

/-- Helper for building well-formed accession walk files. -/
def accFile (p t u : String) : WalkFile :=
  { path := p, readOk := true, parseOk := true,
    decoded := { Title := t, URI := u, JSONModel := "accession" } }

/-- The spec's three-record example: titles A, A, B with URIs /u2, /u1, /u3. -/
def filesC3 : List WalkFile :=
  [accFile "1.json" "A" "/u2", accFile "2.json" "A" "/u1", accFile "3.json" "B" "/u3"]

/-- Two accessions with distinct URIs, one URI containing `"|"`. -/
def filesPipe : List WalkFile :=
  [accFile "1.json" "T" "a|x", accFile "2.json" "T" "b"]

/-- A walk containing one well-formed subject record and one accession. -/
def filesSubj : List WalkFile :=
  [{ path := "s.json", readOk := true, parseOk := true,
     decoded := { Title := "S", URI := "/subj1", JSONModel := "subject" } },
   accFile "a.json" "A" "/a1"]

/-- A walk with no `.json` files at all. -/
def filesNoJson : List WalkFile :=
  [{ path := "readme.md", readOk := true, parseOk := true,
     decoded := { Title := "", URI := "", JSONModel := "" } }]

/-- A walk whose first file mentions a title containing the separator. -/
def filesPipeTitle : List WalkFile :=
  [accFile "1.json" "A|B" "/u1", accFile "2.json" "C" "/u2"]

/-- The index `MakeAccessionTitleIndex` returns on `filesC3`. -/
def mC3 : NavMap :=
  [("/u2", { ThisLabel := "A", ThisURI := "/u2", PrevURI := "/u1", PrevLabel := "A",
             NextURI := "/u3", NextLabel := "B", Weight := 0 }),
   ("/u1", { ThisLabel := "A", ThisURI := "/u1", PrevURI := "", PrevLabel := "",
             NextURI := "/u2", NextLabel := "A", Weight := 0 }),
   ("/u3", { ThisLabel := "B", ThisURI := "/u3", PrevURI := "/u2", PrevLabel := "A",
             NextURI := "", NextLabel := "", Weight := 0 })]

/-- The index returned on `filesPipe`: the `"|"` inside URI `a|x` makes
`extractURI` miss, so no prev/next field is ever populated. -/
def mPipe : NavMap :=
  [("a|x", { ThisLabel := "T", ThisURI := "a|x", PrevURI := "", PrevLabel := "",
             NextURI := "", NextLabel := "", Weight := 0 }),
   ("b", { ThisLabel := "T", ThisURI := "b", PrevURI := "", PrevLabel := "",
           NextURI := "", NextLabel := "", Weight := 0 })]

/-- The index returned on `filesSubj`: only the accession record. -/
def mSubj : NavMap :=
  [("/a1", { ThisLabel := "A", ThisURI := "/a1", PrevURI := "", PrevLabel := "",
             NextURI := "", NextLabel := "", Weight := 0 })]

/-- An accession referencing subject `/s` twice. -/
def accDup : Accession :=
  { Title := "acc", URI := "/acc", ContentDescription := "", ConditionDescription := "",
    AccessionDate := "", CreatedBy := "", CreateTime := "", LastModifiedBy := "",
    UserMTime := "", Extents := [], Instances := [],
    Subjects := [{ ref := some "/s" }, { ref := some "/s" }] }

/-- A subject map holding exactly `/s`. -/
def subjMapS : String → Option Subject :=
  fun r => if r = "/s" then some { URI := "/s", Title := "S" } else none

/-- An accession with one subject ref, one digital-object ref, one
ref-less entry of each kind, and one extent. -/
def accOne : Accession :=
  { Title := "acc", URI := "/acc", ContentDescription := "cd", ConditionDescription := "cond",
    AccessionDate := "2016", CreatedBy := "rsd", CreateTime := "t0", LastModifiedBy := "rsd",
    UserMTime := "t1", Extents := [{ PhysicalDetails := "1 box" }],
    Instances := [{ digital_object := some [("ref", "/do1")] }, { digital_object := none }],
    Subjects := [{ ref := some "/s1" }, { ref := none }] }

/-- A digital object with one empty and two non-empty file-version URIs. -/
def doOne : DigitalObject :=
  { URI := "/do1", Title := "DO", Publish := true,
    FileVersions := [{ FileURI := "f1" }, { FileURI := "" }, { FileURI := "f2" }] }

/-- A digital-object map holding exactly `/do1`. -/
def doMapOne : String → Option DigitalObject :=
  fun r => if r = "/do1" then some doOne else none

/-- The subject record stored under `/s1`. -/
def subjOne : Subject := { URI := "/s1", Title := "S1" }

/-- A loadable subject file. -/
def sfOK : SrcFile Subject := { name := "good.json", read := .ok (.ok subjOne) }

/-- A subject file whose `ReadFile` fails. -/
def sfReadErr : SrcFile Subject := { name := "bad.json", read := .error "permission denied" }

/-- A subject file whose `Unmarshal` fails. -/
def sfParseErr : SrcFile Subject := { name := "ugly.json", read := .ok (.error "invalid character") }

/-- A digital-object file whose `ReadFile` fails. -/
def dfReadErr : SrcFile DigitalObject := { name := "do.json", read := .error "permission denied" }

/-- A subject map holding exactly `/s1`. -/
def subjMapOne : String → Option Subject :=
  fun r => if r = "/s1" then some subjOne else none

/-!  # Theorems -/

/-!  ## The byte-wise order is total and transitive -/

theorem charListLe_total (as bs : List Char) : charListLe as bs = true ∨ charListLe bs as = true := by
  induction as generalizing bs with
  | nil => left; rfl
  | cons a as ih =>
    cases bs with
    | nil => right; rfl
    | cons b bs =>
      rcases lt_trichotomy a b with h | h | h
      · left; simp [charListLe, h]
      · subst h
        rcases ih bs with h' | h'
        · left; simp [charListLe, lt_irrefl, h']
        · right; simp [charListLe, lt_irrefl, h']
      · right; simp [charListLe, h]

theorem charListLe_trans (as bs cs : List Char) (h1 : charListLe as bs = true)
    (h2 : charListLe bs cs = true) : charListLe as cs = true := by
  induction as generalizing bs cs with
  | nil => rfl
  | cons a as ih =>
    cases bs with
    | nil => simp [charListLe] at h1
    | cons b bs =>
      cases cs with
      | nil => simp [charListLe] at h2
      | cons c cs =>
        simp only [charListLe] at h1 h2 ⊢
        rcases lt_trichotomy a b with hab | hab | hab
        · rcases lt_trichotomy b c with hbc | hbc | hbc
          · simp [lt_trans hab hbc]
          · subst hbc; simp [hab]
          · simp [lt_asymm hbc, hbc] at h2
        · subst hab
          rcases lt_trichotomy a c with hac | hac | hac
          · simp [hac]
          · subst hac
            simp only [lt_irrefl, if_false] at h1 h2 ⊢
            exact ih _ _ h1 h2
          · simp [lt_asymm hac, hac] at h2
        · simp [lt_asymm hab, hab] at h1

instance : IsTotal String strLe := ⟨fun a b => charListLe_total a.data b.data⟩

instance : IsTrans String strLe := ⟨fun a b c => charListLe_trans a.data b.data c.data⟩

/-!  ## Trimming lemmas for the renderer -/

theorem dropW_cons_ne (c : Char) (l : List Char) (hc : (c == ' ') = false) :
    (c :: l).dropWhile (· == ' ') = c :: l := by
  simp [List.dropWhile_cons, hc]

theorem dropW_cons_sp (l : List Char) :
    (' ' :: l).dropWhile (· == ' ') = l.dropWhile (· == ' ') := by
  simp [List.dropWhile_cons]

theorem trimSpaces_eq_self (s : String)
    (h1 : ∃ c t, s.data = c :: t ∧ (c == ' ') = false)
    (h2 : ∃ c t, s.data.reverse = c :: t ∧ (c == ' ') = false) : trimSpaces s = s := by
  obtain ⟨c1, t1, hd, hc1⟩ := h1
  obtain ⟨c2, t2, hr, hc2⟩ := h2
  apply String.ext
  show ((s.data.dropWhile _).reverse.dropWhile _).reverse = s.data
  rw [hd, dropW_cons_ne _ _ hc1, ← hd, hr, dropW_cons_ne _ _ hc2, ← hr, List.reverse_reverse]

theorem edge_append_left (s r : String) (h : ∃ c t, s.data = c :: t ∧ (c == ' ') = false) :
    ∃ c t, (s ++ r).data = c :: t ∧ (c == ' ') = false := by
  obtain ⟨c, t, hd, hc⟩ := h
  exact ⟨c, t ++ r.data, by rw [String.data_append, hd, List.cons_append], hc⟩

theorem edge_append_right (s r : String) (h : ∃ c t, r.data.reverse = c :: t ∧ (c == ' ') = false) :
    ∃ c t, (s ++ r).data.reverse = c :: t ∧ (c == ' ') = false := by
  obtain ⟨c, t, hd, hc⟩ := h
  exact ⟨c, t ++ s.data.reverse, by rw [String.data_append, List.reverse_append, hd, List.cons_append], hc⟩

theorem prevFragment_left (nav : NavElementView) :
    ∃ c t, (prevFragment nav).data = c :: t ∧ (c == ' ') = false := by
  unfold prevFragment
  refine edge_append_left _ _ (edge_append_left _ _ (edge_append_left _ _ (edge_append_left _ _ ?_)))
  exact ⟨'<', prevOpen.data.tail, rfl, rfl⟩

theorem prevFragment_right (nav : NavElementView) :
    ∃ c t, (prevFragment nav).data.reverse = c :: t ∧ (c == ' ') = false := by
  unfold prevFragment
  refine edge_append_right _ _ ?_
  exact ⟨'>', prevClose.data.reverse.tail, rfl, rfl⟩

theorem thisFragment_left (nav : NavElementView) :
    ∃ c t, (thisFragment nav).data = c :: t ∧ (c == ' ') = false := by
  unfold thisFragment
  refine edge_append_left _ _ (edge_append_left _ _ (edge_append_left _ _
    (edge_append_left _ _ (edge_append_left _ _ (edge_append_left _ _ ?_)))))
  exact ⟨'<', thisOpen.data.tail, rfl, rfl⟩

theorem thisFragment_right (nav : NavElementView) :
    ∃ c t, (thisFragment nav).data.reverse = c :: t ∧ (c == ' ') = false := by
  unfold thisFragment
  refine edge_append_right _ _ ?_
  exact ⟨'>', thisClose.data.reverse.tail, rfl, rfl⟩

theorem nextFragment_left (nav : NavElementView) :
    ∃ c t, (nextFragment nav).data = c :: t ∧ (c == ' ') = false := by
  unfold nextFragment
  refine edge_append_left _ _ (edge_append_left _ _ (edge_append_left _ _ (edge_append_left _ _ ?_)))
  exact ⟨'<', nextOpen.data.tail, rfl, rfl⟩

theorem nextFragment_right (nav : NavElementView) :
    ∃ c t, (nextFragment nav).data.reverse = c :: t ∧ (c == ' ') = false := by
  unfold nextFragment
  refine edge_append_right _ _ ?_
  exact ⟨'>', nextClose.data.reverse.tail, rfl, rfl⟩

theorem dropW_all_sp (k r : List Char) (hk : ∀ x ∈ k, x = ' ') :
    (k ++ r).dropWhile (· == ' ') = r.dropWhile (· == ' ') := by
  induction k with
  | nil => rfl
  | cons x k ih =>
    have hx : x = ' ' := hk x (by simp)
    subst hx
    rw [List.cons_append, dropW_cons_sp]
    exact ih fun y hy => hk y (by simp [hy])

theorem trimL_master (C k1 k2 : List Char)
    (hC1 : ∃ c t, C = c :: t ∧ (c == ' ') = false)
    (hC2 : ∃ c t, C.reverse = c :: t ∧ (c == ' ') = false)
    (hk1 : ∀ x ∈ k1, x = ' ') (hk2 : ∀ x ∈ k2, x = ' ') :
    (((k1 ++ (C ++ k2)).dropWhile (· == ' ')).reverse.dropWhile (· == ' ')).reverse = C := by
  obtain ⟨c, t, hC, hc⟩ := hC1
  obtain ⟨d, t', hCr, hd⟩ := hC2
  rw [dropW_all_sp k1 _ hk1, hC, List.cons_append, dropW_cons_ne _ _ hc,
    ← List.cons_append, ← hC, List.reverse_append]
  rw [dropW_all_sp _ _ (fun x hx => hk2 x (List.mem_reverse.mp hx)), hCr,
    dropW_cons_ne _ _ hd, ← hCr, List.reverse_reverse]

theorem trimSpaces_data (s : String) :
    (trimSpaces s).data = ((s.data.dropWhile (· == ' ')).reverse.dropWhile (· == ' ')).reverse := rfl

theorem trim_case_ptn (p t n : String)
    (hp1 : ∃ c l, p.data = c :: l ∧ (c == ' ') = false)
    (hn2 : ∃ c l, n.data.reverse = c :: l ∧ (c == ' ') = false) :
    trimSpaces (p ++ " " ++ t ++ " " ++ n) = p ++ " " ++ t ++ " " ++ n :=
  trimSpaces_eq_self _
    (edge_append_left _ _ (edge_append_left _ _ (edge_append_left _ _ (edge_append_left _ _ hp1))))
    (edge_append_right _ _ hn2)

theorem trim_case_pt (p t : String)
    (hp1 : ∃ c l, p.data = c :: l ∧ (c == ' ') = false)
    (ht2 : ∃ c l, t.data.reverse = c :: l ∧ (c == ' ') = false) :
    trimSpaces (p ++ " " ++ t ++ " " ++ "") = p ++ " " ++ t := by
  apply String.ext
  rw [trimSpaces_data]
  have hX : (p ++ " " ++ t ++ " " ++ "").data = [] ++ ((p ++ " " ++ t).data ++ [' ']) := by
    simp [String.data_append]
  rw [hX]
  exact trimL_master _ _ _
    (edge_append_left _ _ (edge_append_left _ _ hp1))
    (edge_append_right _ _ ht2)
    (by intro x hx; cases hx) (by intro x hx; simpa using hx)

theorem trim_case_pn (p n : String)
    (hp1 : ∃ c l, p.data = c :: l ∧ (c == ' ') = false)
    (hn2 : ∃ c l, n.data.reverse = c :: l ∧ (c == ' ') = false) :
    trimSpaces (p ++ " " ++ "" ++ " " ++ n) = p ++ "  " ++ n := by
  have hs : p ++ " " ++ "" ++ " " ++ n = p ++ "  " ++ n := by
    apply String.ext; simp [String.data_append]
  rw [hs]
  exact trimSpaces_eq_self _
    (edge_append_left _ _ (edge_append_left _ _ hp1))
    (edge_append_right _ _ hn2)

theorem trim_case_p (p : String)
    (hp1 : ∃ c l, p.data = c :: l ∧ (c == ' ') = false)
    (hp2 : ∃ c l, p.data.reverse = c :: l ∧ (c == ' ') = false) :
    trimSpaces (p ++ " " ++ "" ++ " " ++ "") = p := by
  apply String.ext
  rw [trimSpaces_data]
  have hX : (p ++ " " ++ "" ++ " " ++ "").data = [] ++ (p.data ++ [' ', ' ']) := by
    simp [String.data_append]
  rw [hX]
  exact trimL_master _ _ _ hp1 hp2 (by intro x hx; cases hx) (by intro x hx; simpa using hx)

theorem trim_case_tn (t n : String)
    (ht1 : ∃ c l, t.data = c :: l ∧ (c == ' ') = false)
    (hn2 : ∃ c l, n.data.reverse = c :: l ∧ (c == ' ') = false) :
    trimSpaces ("" ++ " " ++ t ++ " " ++ n) = t ++ " " ++ n := by
  apply String.ext
  rw [trimSpaces_data]
  have hX : ("" ++ " " ++ t ++ " " ++ n).data = [' '] ++ ((t ++ " " ++ n).data ++ []) := by
    simp [String.data_append]
  rw [hX]
  exact trimL_master _ _ _
    (edge_append_left _ _ (edge_append_left _ _ ht1))
    (edge_append_right _ _ hn2)
    (by intro x hx; simpa using hx) (by intro x hx; cases hx)

theorem trim_case_t (t : String)
    (ht1 : ∃ c l, t.data = c :: l ∧ (c == ' ') = false)
    (ht2 : ∃ c l, t.data.reverse = c :: l ∧ (c == ' ') = false) :
    trimSpaces ("" ++ " " ++ t ++ " " ++ "") = t := by
  apply String.ext
  rw [trimSpaces_data]
  have hX : ("" ++ " " ++ t ++ " " ++ "").data = [' '] ++ (t.data ++ [' ']) := by
    simp [String.data_append]
  rw [hX]
  exact trimL_master _ _ _ ht1 ht2 (by intro x hx; simpa using hx) (by intro x hx; simpa using hx)

theorem trim_case_n (n : String)
    (hn1 : ∃ c l, n.data = c :: l ∧ (c == ' ') = false)
    (hn2 : ∃ c l, n.data.reverse = c :: l ∧ (c == ' ') = false) :
    trimSpaces ("" ++ " " ++ "" ++ " " ++ n) = n := by
  apply String.ext
  rw [trimSpaces_data]
  have hX : ("" ++ " " ++ "" ++ " " ++ n).data = [' ', ' '] ++ (n.data ++ []) := by
    simp [String.data_append]
  rw [hX]
  exact trimL_master _ _ _ hn1 hn2 (by intro x hx; simpa using hx) (by intro x hx; cases hx)

/-!  ## Claim C2 -/

/-- C2 counterexample: for a `NavElementView` with empty `ThisURI` and
non-empty `PrevURI`/`NextURI`, the rendered string is not the two present
fragments joined by a single space — `Sprintf("%s %s %s", ...)` leaves a
double space where the absent middle fragment stood, and `strings.Trim`
only touches the ends. -/
theorem c2_counterexample :
    navMidGap.render ≠ prevFragment navMidGap ++ " " ++ nextFragment navMidGap := by decide

/-- C2 (amended): rendering emits the previous-link fragment iff
`PrevURI` is non-empty, the current-marker fragment iff `ThisURI` is
non-empty, and the next-link fragment iff `NextURI` is non-empty, in
prev/this/next order with no leading or trailing whitespace; consecutive
present fragments are joined by one space, except that when the current
fragment is absent while both prev and next are present, two spaces
separate them. -/
theorem c2_render_amended (nav : NavElementView) :
    nav.render =
      if nav.PrevURI = "" then
        (if nav.ThisURI = "" then (if nav.NextURI = "" then "" else nextFragment nav)
         else (if nav.NextURI = "" then thisFragment nav
               else thisFragment nav ++ " " ++ nextFragment nav))
      else
        (if nav.ThisURI = "" then
           (if nav.NextURI = "" then prevFragment nav
            else prevFragment nav ++ "  " ++ nextFragment nav)
         else (if nav.NextURI = "" then prevFragment nav ++ " " ++ thisFragment nav
               else prevFragment nav ++ " " ++ thisFragment nav ++ " " ++ nextFragment nav)) := by
  unfold NavElementView.render
  by_cases hp : nav.PrevURI = "" <;> by_cases ht : nav.ThisURI = "" <;>
    by_cases hn : nav.NextURI = "" <;>
    simp only [hp, ht, hn, ne_eq, not_true_eq_false, not_false_eq_true, if_true, if_false,
      ite_true, ite_false, ite_not]
  · rfl
  · exact trim_case_n _ (nextFragment_left nav) (nextFragment_right nav)
  · exact trim_case_t _ (thisFragment_left nav) (thisFragment_right nav)
  · exact trim_case_tn _ _ (thisFragment_left nav) (nextFragment_right nav)
  · exact trim_case_p _ (prevFragment_left nav) (prevFragment_right nav)
  · exact trim_case_pn _ _ (prevFragment_left nav) (nextFragment_right nav)
  · exact trim_case_pt _ _ (prevFragment_left nav) (thisFragment_right nav)
  · exact trim_case_ptn _ _ _ (prevFragment_left nav) (nextFragment_right nav)

/-!  ## Claim C9 -/

/-- C9: `Accession.NormalizeView` never fails — its only return statement
is `return v, nil`, so for every accession and every pair of lookup maps
the error component is nil and a view is produced. -/
theorem c9_normalize_never_fails (a : Accession) (subjects : String → Option Subject)
    (digitalObjects : String → Option DigitalObject) :
    (a.NormalizeView subjects digitalObjects).2 = none := rfl

/-!  ## Claim C1 -/

/-- C1: a `.json` file whose contents fail `json.Unmarshal` is not
skipped. The walk callback only logs the parse error and falls through to
the `JSONModel == "accession"` test on the partially decoded struct, so a
file that errors after `jsonmodel_type` and `uri` were decoded (Go's
`Unmarshal` keeps already-set fields) still contributes an index entry. -/
theorem c1_parse_failure_still_indexed :
    badParseFile.parseOk = false ∧
    MakeAccessionTitleIndex [badParseFile] =
      .ok [("/x", { ThisLabel := "", ThisURI := "/x", PrevURI := "", PrevLabel := "",
                    NextURI := "", NextLabel := "", Weight := 0 })] :=
  ⟨rfl, rfl⟩

/-!  ## Claims C5 and C6: the reference resolver -/

theorem subjectsLoop_eq (subjects : String → Option Subject) (items : List SubjectRef)
    (acc : List String) :
    subjectsLoop subjects items acc =
      acc ++ items.filterMap fun item => item.ref.bind fun r => (subjects r).map Subject.Title := by
  induction items generalizing acc with
  | nil => simp [subjectsLoop]
  | cons item rest ih =>
    cases h : item.ref with
    | none => simp [subjectsLoop, h, ih]
    | some r =>
      cases h2 : subjects r with
      | none => simp [subjectsLoop, h, h2, ih]
      | some rec => simp [subjectsLoop, h, h2, ih]

theorem instancesLoop_eq (digitalObjects : String → Option DigitalObject)
    (items : List Instance) (acc : List NormalizedDigitalObjectView) :
    instancesLoop digitalObjects items acc =
      acc ++ items.filterMap fun item =>
        (doRefOf item).bind fun r => (digitalObjects r).map DigitalObject.NormalizeView := by
  induction items generalizing acc with
  | nil => simp [instancesLoop]
  | cons item rest ih =>
    cases h : item.digital_object with
    | none => simp [instancesLoop, h, ih, doRefOf]
    | some kv =>
      cases h2 : mapGet kv "ref" with
      | none => simp [instancesLoop, h, h2, ih, doRefOf]
      | some r =>
        cases h3 : digitalObjects r with
        | none => simp [instancesLoop, h, h2, h3, ih, doRefOf]
        | some obj => simp [instancesLoop, h, h2, h3, ih, doRefOf]

theorem fileVersionsLoop_eq (items : List FileVersion) (acc : List String) :
    fileVersionsLoop items acc =
      acc ++ (items.map FileVersion.FileURI).filter (fun s => s != "") := by
  induction items generalizing acc with
  | nil => simp [fileVersionsLoop]
  | cons fv rest ih =>
    by_cases h : fv.FileURI = ""
    · simp [fileVersionsLoop, h, ih]
    · simp [fileVersionsLoop, h, ih]

theorem forall2_resolved {α β γ : Type} (F : α → Option β) (G : β → Option γ)
    (R : β → γ → Prop) (items : List α)
    (h : ∀ b ∈ items.filterMap F, ∃ c, G b = some c ∧ R b c) :
    List.Forall₂ R (items.filterMap F) (items.filterMap fun a => (F a).bind G) := by
  induction items with
  | nil => exact List.Forall₂.nil
  | cons a rest ih =>
    cases hF : F a with
    | none =>
      simp only [List.filterMap_cons, hF, Option.none_bind]
      exact ih fun b hb => h b (by simp [List.filterMap_cons, hF, hb])
    | some b =>
      obtain ⟨c, hG, hR⟩ := h b (by simp [List.filterMap_cons, hF])
      simp only [List.filterMap_cons, hF, Option.some_bind, hG]
      exact List.Forall₂.cons hR (ih fun b' hb => h b' (by simp [List.filterMap_cons, hF, hb]))

theorem count_eq_one_split (l : List String) (s : String) (h : l.count s = 1) :
    ∃ l1 l2, l = l1 ++ s :: l2 ∧ s ∉ l1 ∧ s ∉ l2 := by
  induction l with
  | nil => simp [List.count_nil] at h
  | cons a l ih =>
    by_cases ha : a = s
    · subst ha
      have h1 := List.count_cons_self a l
      have h0 : l.count a = 0 := by omega
      exact ⟨[], l, by simp, by simp, List.count_eq_zero.mp h0⟩
    · have hsa : s ≠ a := fun hh => ha hh.symm
      have hc : (a :: l).count s = l.count s := List.count_cons_of_ne hsa l
      obtain ⟨l1, l2, he, h1, h2⟩ := ih (by omega)
      exact ⟨a :: l1, l2, by simp [he], by simp [hsa, h1], h2⟩

theorem filterMap_ext_mem {α β : Type} (f g : α → Option β) (l : List α)
    (h : ∀ x ∈ l, f x = g x) : l.filterMap f = l.filterMap g := by
  induction l with
  | nil => rfl
  | cons a rest ih =>
    rw [List.filterMap_cons, List.filterMap_cons, h a (by simp),
      ih fun x hx => h x (by simp [hx])]

/-- C5: for an accession whose subject refs and digital-object refs all
resolve in the supplied maps, the normalized view holds exactly the
referenced subjects' titles and the referenced digital objects'
normalized views, in source order with nothing added (stated as
`Forall2` correspondences), and every digital object's normalized
`FileURIs` is exactly its non-empty file-version URIs in order. -/
theorem c5_round_trip (a : Accession) (subjects : String → Option Subject)
    (digitalObjects : String → Option DigitalObject)
    (hs : ∀ r ∈ a.Subjects.filterMap SubjectRef.ref, subjects r ≠ none)
    (hd : ∀ r ∈ a.Instances.filterMap doRefOf, digitalObjects r ≠ none) :
    List.Forall₂ (fun r t => ∃ rec, subjects r = some rec ∧ t = rec.Title)
      (a.Subjects.filterMap SubjectRef.ref)
      ((a.NormalizeView subjects digitalObjects).1).Subjects ∧
    List.Forall₂ (fun r dov => ∃ obj, digitalObjects r = some obj ∧ dov = obj.NormalizeView)
      (a.Instances.filterMap doRefOf)
      ((a.NormalizeView subjects digitalObjects).1).DigitalObjects ∧
    ∀ o : DigitalObject, o.NormalizeView.FileURIs =
      (o.FileVersions.map FileVersion.FileURI).filter (fun s => s != "") := by
  refine ⟨?_, ?_, ?_⟩
  · have hv : ((a.NormalizeView subjects digitalObjects).1).Subjects =
        a.Subjects.filterMap fun item => item.ref.bind fun r => (subjects r).map Subject.Title := by
      simp [Accession.NormalizeView, subjectsLoop_eq]
    rw [hv]
    apply forall2_resolved
    intro r hr
    obtain ⟨rec, hrec⟩ := Option.ne_none_iff_exists'.mp (hs r hr)
    exact ⟨rec.Title, by simp [hrec], rec, hrec, rfl⟩
  · have hv : ((a.NormalizeView subjects digitalObjects).1).DigitalObjects =
        a.Instances.filterMap fun item =>
          (doRefOf item).bind fun r => (digitalObjects r).map DigitalObject.NormalizeView := by
      simp [Accession.NormalizeView, instancesLoop_eq]
    rw [hv]
    apply forall2_resolved
    intro r hr
    obtain ⟨obj, hobj⟩ := Option.ne_none_iff_exists'.mp (hd r hr)
    exact ⟨obj.NormalizeView, by simp [hobj], obj, hobj, rfl⟩
  · intro o
    simp [DigitalObject.NormalizeView, fileVersionsLoop_eq]

/-- C6 (amended): removing from the subject map a subject referenced by
exactly one `Subjects` entry yields a view whose subject list loses
exactly that subject's title, all other entries unchanged in order, and
no error is raised. -/
theorem c6_removed_subject (a : Accession) (subjects : String → Option Subject)
    (digitalObjects : String → Option DigitalObject) (s : String) (rec : Subject)
    (h1 : subjects s = some rec)
    (h2 : (a.Subjects.filterMap SubjectRef.ref).count s = 1) :
    ∃ A B,
      ((a.NormalizeView subjects digitalObjects).1).Subjects = A ++ rec.Title :: B ∧
      ((a.NormalizeView (fun r => if r = s then none else subjects r) digitalObjects).1).Subjects
        = A ++ B ∧
      (a.NormalizeView (fun r => if r = s then none else subjects r) digitalObjects).2 = none := by
  obtain ⟨l1, l2, he, hn1, hn2⟩ := count_eq_one_split _ _ h2
  refine ⟨l1.filterMap (fun r => (subjects r).map Subject.Title),
          l2.filterMap (fun r => (subjects r).map Subject.Title), ?_, ?_, rfl⟩
  · have hv : ((a.NormalizeView subjects digitalObjects).1).Subjects =
        (a.Subjects.filterMap SubjectRef.ref).filterMap
          fun r => (subjects r).map Subject.Title := by
      rw [List.filterMap_filterMap]
      simp [Accession.NormalizeView, subjectsLoop_eq]
    rw [hv, he, List.filterMap_append, List.filterMap_cons]
    simp [h1]
  · have hv : ((a.NormalizeView (fun r => if r = s then none else subjects r) digitalObjects).1).Subjects =
        (a.Subjects.filterMap SubjectRef.ref).filterMap
          fun r => ((if r = s then none else subjects r) : Option Subject).map Subject.Title := by
      rw [List.filterMap_filterMap]
      simp [Accession.NormalizeView, subjectsLoop_eq]
    rw [hv, he, List.filterMap_append, List.filterMap_cons]
    have e1 : l1.filterMap (fun r => ((if r = s then none else subjects r) : Option Subject).map Subject.Title)
        = l1.filterMap (fun r => (subjects r).map Subject.Title) := by
      apply filterMap_ext_mem
      intro x hx
      have : x ≠ s := fun hh => hn1 (hh ▸ hx)
      simp [this]
    have e2 : l2.filterMap (fun r => ((if r = s then none else subjects r) : Option Subject).map Subject.Title)
        = l2.filterMap (fun r => (subjects r).map Subject.Title) := by
      apply filterMap_ext_mem
      intro x hx
      have : x ≠ s := fun hh => hn2 (hh ▸ hx)
      simp [this]
    simp [e1, e2]

/-- C5 witness: the round-trip theorem applied to a concrete accession
with one resolvable subject ref and one resolvable digital-object ref. -/
theorem c5_witness :
    List.Forall₂ (fun r t => ∃ rec, subjMapOne r = some rec ∧ t = rec.Title)
      (accOne.Subjects.filterMap SubjectRef.ref)
      ((accOne.NormalizeView subjMapOne doMapOne).1).Subjects ∧
    List.Forall₂ (fun r dov => ∃ obj, doMapOne r = some obj ∧ dov = obj.NormalizeView)
      (accOne.Instances.filterMap doRefOf)
      ((accOne.NormalizeView subjMapOne doMapOne).1).DigitalObjects ∧
    doOne.NormalizeView.FileURIs =
      (doOne.FileVersions.map FileVersion.FileURI).filter (fun s => s != "") := by
  have h := c5_round_trip accOne subjMapOne doMapOne (by decide) (by decide)
  exact ⟨h.1, h.2.1, h.2.2 doOne⟩

/-- C6 counterexample: an accession referencing the same subject twice.
Removing that subject from the map drops the subject list from two
entries to zero, not to "exactly one fewer". -/
theorem c6_counterexample :
    ¬ (((accDup.NormalizeView (fun r => if r = "/s" then none else subjMapS r)
          (fun _ => none)).1).Subjects.length
        = ((accDup.NormalizeView subjMapS (fun _ => none)).1).Subjects.length - 1) := by
  decide

/-- C6 witness: the removal theorem applied to a concrete accession that
references `/s1` exactly once. -/
theorem c6_witness :
    ∃ A B,
      ((accOne.NormalizeView subjMapOne doMapOne).1).Subjects = A ++ subjOne.Title :: B ∧
      ((accOne.NormalizeView (fun r => if r = "/s1" then none else subjMapOne r) doMapOne).1).Subjects
        = A ++ B ∧
      (accOne.NormalizeView (fun r => if r = "/s1" then none else subjMapOne r) doMapOne).2 = none :=
  c6_removed_subject accOne subjMapOne doMapOne "/s1" subjOne rfl (by decide)

/-!  ## Claim C8: the directory loaders -/

theorem subjectListLoop_append_ok (dname : String) (rest : List (SrcFile Subject)) :
    ∀ (pre : List (SrcFile Subject)) (acc : List Subject), (∀ g ∈ pre, fileOK g) →
    ∃ acc', subjectListLoop dname (pre ++ rest) acc = subjectListLoop dname rest acc' := by
  intro pre
  induction pre with
  | nil => intro acc _; exact ⟨acc, rfl⟩
  | cons g pre ih =>
    intro acc h
    obtain ⟨rec, hrec⟩ := h g (by simp)
    obtain ⟨acc', ha⟩ := ih (acc ++ [rec]) fun x hx => h x (by simp [hx])
    refine ⟨acc', ?_⟩
    rw [List.cons_append]
    show subjectListLoop dname (g :: (pre ++ rest)) acc = _
    rw [subjectListLoop, hrec]
    exact ha

theorem subjectMapLoop_append_ok (dname : String) (rest : List (SrcFile Subject)) :
    ∀ (pre : List (SrcFile Subject)) (acc : List (String × Subject)), (∀ g ∈ pre, fileOK g) →
    ∃ acc', subjectMapLoop dname (pre ++ rest) acc = subjectMapLoop dname rest acc' := by
  intro pre
  induction pre with
  | nil => intro acc _; exact ⟨acc, rfl⟩
  | cons g pre ih =>
    intro acc h
    obtain ⟨rec, hrec⟩ := h g (by simp)
    obtain ⟨acc', ha⟩ := ih (goInsert acc rec.URI rec) fun x hx => h x (by simp [hx])
    refine ⟨acc', ?_⟩
    rw [List.cons_append]
    show subjectMapLoop dname (g :: (pre ++ rest)) acc = _
    rw [subjectMapLoop, hrec]
    exact ha

theorem digitalObjectMapLoop_append_ok (dname : String) (rest : List (SrcFile DigitalObject)) :
    ∀ (pre : List (SrcFile DigitalObject)) (acc : List (String × DigitalObject)),
    (∀ g ∈ pre, fileOK g) →
    ∃ acc', digitalObjectMapLoop dname (pre ++ rest) acc = digitalObjectMapLoop dname rest acc' := by
  intro pre
  induction pre with
  | nil => intro acc _; exact ⟨acc, rfl⟩
  | cons g pre ih =>
    intro acc h
    obtain ⟨rec, hrec⟩ := h g (by simp)
    obtain ⟨acc', ha⟩ := ih (goInsert acc rec.URI rec) fun x hx => h x (by simp [hx])
    refine ⟨acc', ?_⟩
    rw [List.cons_append]
    show digitalObjectMapLoop dname (g :: (pre ++ rest)) acc = _
    rw [digitalObjectMapLoop, hrec]
    exact ha

theorem subjectListLoop_shape (dname : String) :
    ∀ (files : List (SrcFile Subject)) (acc : List Subject),
    (subjectListLoop dname files acc).1 = none ↔ (subjectListLoop dname files acc).2 ≠ none := by
  intro files
  induction files with
  | nil => intro acc; simp [subjectListLoop]
  | cons f rest ih =>
    intro acc
    rcases hf : f.read with e | pe
    · simp [subjectListLoop, hf]
    · rcases pe with e | rec
      · simp [subjectListLoop, hf]
      · rw [subjectListLoop, hf]
        exact ih _

theorem subjectMapLoop_shape (dname : String) :
    ∀ (files : List (SrcFile Subject)) (acc : List (String × Subject)),
    (subjectMapLoop dname files acc).1 = none ↔ (subjectMapLoop dname files acc).2 ≠ none := by
  intro files
  induction files with
  | nil => intro acc; simp [subjectMapLoop]
  | cons f rest ih =>
    intro acc
    rcases hf : f.read with e | pe
    · simp [subjectMapLoop, hf]
    · rcases pe with e | rec
      · simp [subjectMapLoop, hf]
      · rw [subjectMapLoop, hf]
        exact ih _

theorem digitalObjectMapLoop_shape (dname : String) :
    ∀ (files : List (SrcFile DigitalObject)) (acc : List (String × DigitalObject)),
    (digitalObjectMapLoop dname files acc).1 = none ↔ (digitalObjectMapLoop dname files acc).2 ≠ none := by
  intro files
  induction files with
  | nil => intro acc; simp [digitalObjectMapLoop]
  | cons f rest ih =>
    intro acc
    rcases hf : f.read with e | pe
    · simp [digitalObjectMapLoop, hf]
    · rcases pe with e | rec
      · simp [digitalObjectMapLoop, hf]
      · rw [digitalObjectMapLoop, hf]
        exact ih _

/-- C8: for all three loaders, a directory read failure, a file read
failure, or a file parse failure is fatal to the whole call: the error
names the path/file and the underlying cause (the digital-object parse
message says "subject" but still names the file and cause), and the
result component is nil exactly when an error is returned — no partial
sequence or map escapes. -/
theorem c8_loader_failures :
    (∀ dname e, MakeSubjectList dname (.error e) =
      (none, some ("Can't read subjects from " ++ dname ++ ", " ++ e))) ∧
    (∀ dname e, MakeSubjectMap dname (.error e) =
      (none, some ("Can't read subjects from " ++ dname ++ ", " ++ e))) ∧
    (∀ dname e, MakeDigitalObjectMap dname (.error e) =
      (none, some ("Can't read Digital Objects from " ++ dname ++ ", " ++ e))) ∧
    (∀ dname (pre : List (SrcFile Subject)) f rest e, (∀ g ∈ pre, fileOK g) →
      (f.read = .error e →
        MakeSubjectList dname (.ok (pre ++ f :: rest)) =
          (none, some ("Can't read " ++ pathJoin dname f.name ++ ", " ++ e)) ∧
        MakeSubjectMap dname (.ok (pre ++ f :: rest)) =
          (none, some ("Can't read " ++ pathJoin dname f.name ++ ", " ++ e))) ∧
      (f.read = .ok (.error e) →
        MakeSubjectList dname (.ok (pre ++ f :: rest)) =
          (none, some ("Can't parse subject " ++ pathJoin dname f.name ++ ", " ++ e)) ∧
        MakeSubjectMap dname (.ok (pre ++ f :: rest)) =
          (none, some ("Can't parse subject " ++ pathJoin dname f.name ++ ", " ++ e)))) ∧
    (∀ dname (pre : List (SrcFile DigitalObject)) f rest e, (∀ g ∈ pre, fileOK g) →
      (f.read = .error e →
        MakeDigitalObjectMap dname (.ok (pre ++ f :: rest)) =
          (none, some ("Can't read " ++ pathJoin dname f.name ++ ", " ++ e))) ∧
      (f.read = .ok (.error e) →
        MakeDigitalObjectMap dname (.ok (pre ++ f :: rest)) =
          (none, some ("Can't parse subject " ++ pathJoin dname f.name ++ ", " ++ e)))) ∧
    (∀ dname dir, (MakeSubjectList dname dir).1 = none ↔ (MakeSubjectList dname dir).2 ≠ none) ∧
    (∀ dname dir, (MakeSubjectMap dname dir).1 = none ↔ (MakeSubjectMap dname dir).2 ≠ none) ∧
    (∀ dname dir, (MakeDigitalObjectMap dname dir).1 = none ↔
      (MakeDigitalObjectMap dname dir).2 ≠ none) := by
  refine ⟨fun dname e => rfl, fun dname e => rfl, fun dname e => rfl, ?_, ?_, ?_, ?_, ?_⟩
  · intro dname pre f rest e hpre
    constructor
    · intro hf
      obtain ⟨acc1, ha1⟩ := subjectListLoop_append_ok dname (f :: rest) pre [] hpre
      obtain ⟨acc2, ha2⟩ := subjectMapLoop_append_ok dname (f :: rest) pre [] hpre
      constructor
      · show subjectListLoop dname (pre ++ f :: rest) [] = _
        rw [ha1]; simp [subjectListLoop, hf]
      · show subjectMapLoop dname (pre ++ f :: rest) [] = _
        rw [ha2]; simp [subjectMapLoop, hf]
    · intro hf
      obtain ⟨acc1, ha1⟩ := subjectListLoop_append_ok dname (f :: rest) pre [] hpre
      obtain ⟨acc2, ha2⟩ := subjectMapLoop_append_ok dname (f :: rest) pre [] hpre
      constructor
      · show subjectListLoop dname (pre ++ f :: rest) [] = _
        rw [ha1]; simp [subjectListLoop, hf]
      · show subjectMapLoop dname (pre ++ f :: rest) [] = _
        rw [ha2]; simp [subjectMapLoop, hf]
  · intro dname pre f rest e hpre
    constructor
    · intro hf
      obtain ⟨acc1, ha1⟩ := digitalObjectMapLoop_append_ok dname (f :: rest) pre [] hpre
      show digitalObjectMapLoop dname (pre ++ f :: rest) [] = _
      rw [ha1]; simp [digitalObjectMapLoop, hf]
    · intro hf
      obtain ⟨acc1, ha1⟩ := digitalObjectMapLoop_append_ok dname (f :: rest) pre [] hpre
      show digitalObjectMapLoop dname (pre ++ f :: rest) [] = _
      rw [ha1]; simp [digitalObjectMapLoop, hf]
  · intro dname dir
    cases dir with
    | error e => simp [MakeSubjectList]
    | ok files => exact subjectListLoop_shape dname files []
  · intro dname dir
    cases dir with
    | error e => simp [MakeSubjectMap]
    | ok files => exact subjectMapLoop_shape dname files []
  · intro dname dir
    cases dir with
    | error e => simp [MakeDigitalObjectMap]
    | ok files => exact digitalObjectMapLoop_shape dname files []

/-- C8 witness: the loader-failure theorem applied to concrete
directories: an unreadable directory, an unreadable second file after a
loadable one, an unparsable second file, and an unreadable
digital-object file. -/
theorem c8_witness :
    MakeSubjectList "data" (.error "boom") =
      (none, some "Can't read subjects from data, boom") ∧
    MakeSubjectMap "data" (.ok [sfOK, sfReadErr]) =
      (none, some "Can't read data/bad.json, permission denied") ∧
    MakeSubjectList "data" (.ok [sfOK, sfParseErr]) =
      (none, some "Can't parse subject data/ugly.json, invalid character") ∧
    MakeDigitalObjectMap "data" (.ok [dfReadErr]) =
      (none, some "Can't read data/do.json, permission denied") ∧
    ((MakeSubjectMap "data" (.ok [sfOK, sfReadErr])).1 = none ↔
      (MakeSubjectMap "data" (.ok [sfOK, sfReadErr])).2 ≠ none) := by
  obtain ⟨h1, h2, h3, h4, h5, h6, h7, h8⟩ := c8_loader_failures
  refine ⟨h1 "data" "boom", ?_, ?_, ?_, h7 "data" (.ok [sfOK, sfReadErr])⟩
  · exact ((h4 "data" [sfOK] sfReadErr [] "permission denied"
      (by intro g hg; simp at hg; subst hg; exact ⟨subjOne, rfl⟩)).1 rfl).2
  · exact ((h4 "data" [sfOK] sfParseErr [] "invalid character"
      (by intro g hg; simp at hg; subst hg; exact ⟨subjOne, rfl⟩)).2 rfl).1
  · exact (h5 "data" [] dfReadErr [] "permission denied" (by intro g hg; cases hg)).1 rfl

/-!  ## The walk, the insert fold, and the linking loop -/

theorem walk_foldl (files : List WalkFile) : ∀ (m : NavMap) (ts : List String),
    files.foldl walkStep (m, ts) =
      ((keptAccessions files).foldl (fun mm r => goInsert mm r.URI (freshNav r)) m,
       ts ++ (keptAccessions files).map accessionKey) := by
  induction files with
  | nil => intro m ts; simp [keptAccessions]
  | cons f rest ih =>
    intro m ts
    by_cases h1 : hasSuffix f.path ".json"
    · by_cases h2 : f.readOk = true
      · by_cases h3 : f.decoded.JSONModel = "accession"
        · have hk : keptAccessions (f :: rest) = f.decoded :: keptAccessions rest := by
            simp [keptAccessions, List.filterMap_cons, h1, h2, h3]
          have hw : walkStep (m, ts) f =
              (goInsert m f.decoded.URI (freshNav f.decoded), ts ++ [accessionKey f.decoded]) := by
            simp [walkStep, h1, h2, h3]
          rw [List.foldl_cons, hw, ih, hk]
          simp
        · have hk : keptAccessions (f :: rest) = keptAccessions rest := by
            simp [keptAccessions, List.filterMap_cons, h3]
          have hw : walkStep (m, ts) f = (m, ts) := by
            simp [walkStep, h1, h2, h3]
          rw [List.foldl_cons, hw, ih, hk]
      · have hk : keptAccessions (f :: rest) = keptAccessions rest := by
          simp [keptAccessions, List.filterMap_cons, h2]
        have hw : walkStep (m, ts) f = (m, ts) := by
          simp [walkStep, h1, h2]
        rw [List.foldl_cons, hw, ih, hk]
    · have hk : keptAccessions (f :: rest) = keptAccessions rest := by
        simp [keptAccessions, List.filterMap_cons, h1]
      have hw : walkStep (m, ts) f = (m, ts) := by
        simp [walkStep, h1]
      rw [List.foldl_cons, hw, ih, hk]

theorem walkAll_eq (files : List WalkFile) :
    walkAll files =
      ((keptAccessions files).foldl (fun mm r => goInsert mm r.URI (freshNav r)) [],
       (keptAccessions files).map accessionKey) := by
  have := walk_foldl files [] []
  simpa [walkAll] using this

theorem foldl_goInsert_none_iff (recs : List AccessionProj) :
    ∀ (m : NavMap) (k : String),
    mapGet (recs.foldl (fun mm r => goInsert mm r.URI (freshNav r)) m) k = none ↔
      (mapGet m k = none ∧ ∀ r ∈ recs, r.URI ≠ k) := by
  induction recs with
  | nil => intro m k; simp
  | cons r rest ih =>
    intro m k
    rw [List.foldl_cons, ih]
    rw [mapGet_goInsert]
    by_cases h : r.URI = k
    · simp [h]
    · simp [h]

theorem foldl_goInsert_prop (P : String → NavElementView → Prop) (recs : List AccessionProj) :
    ∀ (m : NavMap), (∀ k v, mapGet m k = some v → P k v) →
    (∀ r ∈ recs, P r.URI (freshNav r)) →
    ∀ k v, mapGet (recs.foldl (fun mm r => goInsert mm r.URI (freshNav r)) m) k = some v → P k v := by
  induction recs with
  | nil => intro m hm _ k v h; exact hm k v h
  | cons r rest ih =>
    intro m hm hr k v h
    rw [List.foldl_cons] at h
    refine ih _ ?_ (fun rr hrr => hr rr (by simp [hrr])) k v h
    intro k' v' h'
    rw [mapGet_goInsert] at h'
    by_cases hk : r.URI = k'
    · rw [if_pos hk] at h'
      cases h'
      exact hk ▸ hr r (by simp)
    · rw [if_neg hk] at h'
      exact hm k' v' h'

theorem foldl_goInsert_ne (recs : List AccessionProj) :
    ∀ (m : NavMap) (u : String), (∀ rr ∈ recs, rr.URI ≠ u) →
    mapGet (recs.foldl (fun mm r => goInsert mm r.URI (freshNav r)) m) u = mapGet m u := by
  induction recs with
  | nil => intro m u _; rfl
  | cons r rest ih =>
    intro m u h
    rw [List.foldl_cons, ih _ _ (fun rr hrr => h rr (by simp [hrr])), mapGet_goInsert,
      if_neg (h r (by simp))]

theorem foldl_goInsert_get_nodup (recs : List AccessionProj) :
    ∀ (m : NavMap) (r : AccessionProj), (recs.map (fun x => x.URI)).Nodup → r ∈ recs →
    mapGet (recs.foldl (fun mm r => goInsert mm r.URI (freshNav r)) m) r.URI = some (freshNav r) := by
  induction recs with
  | nil => intro m r _ h; cases h
  | cons r0 rest ih =>
    intro m r hnd hr
    rw [List.map_cons, List.nodup_cons] at hnd
    rw [List.foldl_cons]
    rcases List.mem_cons.mp hr with h | h
    · subst h
      have hne : ∀ rr ∈ rest, rr.URI ≠ r.URI := fun rr hrr heq =>
        hnd.1 (heq ▸ List.mem_map_of_mem (fun x => x.URI) hrr)
      rw [foldl_goInsert_ne rest _ _ hne, mapGet_goInsert, if_pos rfl]
    · exact ih _ r hnd.2 h

theorem takeWhile_append_stop (p : Char → Bool) :
    ∀ (l : List Char) (c : Char) (r : List Char), (∀ x ∈ l, p x = true) → p c = false →
    (l ++ c :: r).takeWhile p = l := by
  intro l
  induction l with
  | nil => intro c r _ hc; simp [List.takeWhile_cons, hc]
  | cons x l ih =>
    intro c r hl hc
    rw [List.cons_append, List.takeWhile_cons, hl x (by simp)]
    rw [ih c r (fun y hy => hl y (by simp [hy])) hc]
    simp

theorem extractURI_key (t u : String) (h : '|' ∉ u.data) : extractURI (t ++ "|" ++ u) = u := by
  have hdata : (t ++ "|" ++ u).data = t.data ++ '|' :: u.data := by
    rw [String.data_append, String.data_append]
    simp [show ("|" : String).data = ['|'] from rfl]
  apply String.ext
  show ((t ++ "|" ++ u).data.reverse.takeWhile (· != '|')).reverse = u.data
  rw [hdata, List.reverse_append, List.reverse_cons, List.append_assoc,
    List.singleton_append]
  rw [takeWhile_append_stop _ _ _ _ ?hall ?hstop]
  · exact List.reverse_reverse u.data
  case hall =>
    intro x hx
    have : x ∈ u.data := List.mem_reverse.mp hx
    have hne : x ≠ '|' := fun hh => h (hh ▸ this)
    simpa using hne
  case hstop => rfl

theorem extractURI_getD_map (sorted : List String) (n : Nat) :
    (sorted.map extractURI).getD n "" = extractURI (sorted.getD n "") := by
  induction sorted generalizing n with
  | nil => cases n <;> rfl
  | cons a l ih =>
    cases n with
    | zero => rfl
    | succ n => exact ih n

theorem getD_mem (l : List String) (n : Nat) (h : n < l.length) : l.getD n "" ∈ l := by
  induction l generalizing n with
  | nil => simp at h
  | cons a l ih =>
    cases n with
    | zero => simp
    | succ n =>
      right
      exact ih n (by simpa using h)

theorem nodup_getD_ne (l : List String) (hnd : l.Nodup) (i j : Nat) (hi : i < l.length)
    (hj : j < l.length) (hij : i ≠ j) : l.getD i "" ≠ l.getD j "" := by
  induction l generalizing i j with
  | nil => simp at hi
  | cons a l ih =>
    rw [List.nodup_cons] at hnd
    cases i with
    | zero =>
      cases j with
      | zero => exact absurd rfl hij
      | succ j =>
        intro heq
        rw [List.getD_cons_zero, List.getD_cons_succ] at heq
        exact hnd.1 (heq ▸ getD_mem l j (by simpa using hj))
    | succ i =>
      cases j with
      | zero =>
        intro heq
        rw [List.getD_cons_succ, List.getD_cons_zero] at heq
        exact hnd.1 (heq.symm ▸ getD_mem l i (by simpa using hi))
      | succ j =>
        exact ih hnd.2 i j (by simpa using hi) (by simpa using hj) (fun hh => hij (by simp [hh]))

theorem thisPart_setPrev (m : NavMap) (k a b k' : String) :
    thisPart (mapGet (setPrevFields m k a b) k') = thisPart (mapGet m k') := by
  simp only [setPrevFields, mapGet_mapModify]
  by_cases h : k = k'
  · rw [if_pos h]
    cases mapGet m k' <;> simp [thisPart]
  · rw [if_neg h]

theorem thisPart_setNext (m : NavMap) (k a b k' : String) :
    thisPart (mapGet (setNextFields m k a b) k') = thisPart (mapGet m k') := by
  simp only [setNextFields, mapGet_mapModify]
  by_cases h : k = k'
  · rw [if_pos h]
    cases mapGet m k' <;> simp [thisPart]
  · rw [if_neg h]

theorem thisPart_linkPrevPhase (sorted : List String) (m : NavMap) (i : Nat) (uri k : String) :
    thisPart (mapGet (linkPrevPhase sorted m i uri) k) = thisPart (mapGet m k) := by
  unfold linkPrevPhase
  by_cases hi : 0 < i
  · rw [if_pos hi]
    cases mapGet m (extractURI (sorted.getD (i - 1) "")) with
    | none => rfl
    | some prev => exact thisPart_setPrev m uri prev.ThisLabel prev.ThisURI k
  · rw [if_neg hi]

theorem thisPart_linkNextPhase (sorted : List String) (m1 : NavMap) (i : Nat) (uri k : String) :
    thisPart (mapGet (linkNextPhase sorted m1 i uri) k) = thisPart (mapGet m1 k) := by
  unfold linkNextPhase
  by_cases hi : i < sorted.length - 1
  · rw [if_pos hi]
    cases mapGet m1 (extractURI (sorted.getD (i + 1) "")) with
    | none => rfl
    | some next => exact thisPart_setNext m1 uri next.ThisLabel next.ThisURI k
  · rw [if_neg hi]

theorem thisPart_linkStep (sorted : List String) (m : NavMap) (i : Nat) (k : String) :
    thisPart (mapGet (linkStep sorted m i) k) = thisPart (mapGet m k) := by
  cases h : mapGet m (extractURI (sorted.getD i "")) with
  | none => simp only [linkStep, h]
  | some v =>
    simp only [linkStep, h]
    rw [thisPart_linkNextPhase, thisPart_linkPrevPhase]

theorem thisPart_linkFoldl (L : List Nat) (sorted : List String) :
    ∀ (m : NavMap) (k : String),
    thisPart (mapGet (L.foldl (linkStep sorted) m) k) = thisPart (mapGet m k) := by
  induction L with
  | nil => intro m k; rfl
  | cons i L ih =>
    intro m k
    rw [List.foldl_cons, ih, thisPart_linkStep]

theorem linkPrevPhase_ne (sorted : List String) (m : NavMap) (i : Nat) (uri k : String)
    (hk : uri ≠ k) : mapGet (linkPrevPhase sorted m i uri) k = mapGet m k := by
  unfold linkPrevPhase
  by_cases hi : 0 < i
  · rw [if_pos hi]
    cases mapGet m (extractURI (sorted.getD (i - 1) "")) with
    | none => rfl
    | some prev => simp only [setPrevFields, mapGet_mapModify, if_neg hk]
  · rw [if_neg hi]

theorem linkNextPhase_ne (sorted : List String) (m1 : NavMap) (i : Nat) (uri k : String)
    (hk : uri ≠ k) : mapGet (linkNextPhase sorted m1 i uri) k = mapGet m1 k := by
  unfold linkNextPhase
  by_cases hi : i < sorted.length - 1
  · rw [if_pos hi]
    cases mapGet m1 (extractURI (sorted.getD (i + 1) "")) with
    | none => rfl
    | some next => simp only [setNextFields, mapGet_mapModify, if_neg hk]
  · rw [if_neg hi]

theorem linkStep_get_ne (sorted : List String) (m : NavMap) (i : Nat) (k : String)
    (hk : extractURI (sorted.getD i "") ≠ k) :
    mapGet (linkStep sorted m i) k = mapGet m k := by
  cases h : mapGet m (extractURI (sorted.getD i "")) with
  | none => simp only [linkStep, h]
  | some v =>
    simp only [linkStep, h]
    rw [linkNextPhase_ne _ _ _ _ _ hk, linkPrevPhase_ne _ _ _ _ _ hk]

theorem linkPrevPhase_zero (sorted : List String) (m : NavMap) (uri : String) :
    linkPrevPhase sorted m 0 uri = m := by
  unfold linkPrevPhase
  rw [if_neg (by omega)]

theorem linkPrevPhase_pos (sorted : List String) (m : NavMap) (i : Nat) (uri : String)
    (p v : NavElementView) (hi : 0 < i)
    (hp : mapGet m (extractURI (sorted.getD (i - 1) "")) = some p)
    (hv : mapGet m uri = some v) :
    mapGet (linkPrevPhase sorted m i uri) uri =
      some { v with PrevLabel := p.ThisLabel, PrevURI := p.ThisURI } := by
  unfold linkPrevPhase
  rw [if_pos hi, hp]
  simp only [setPrevFields, mapGet_mapModify, if_pos rfl, hv]
  rfl

theorem linkNextPhase_last (sorted : List String) (m1 : NavMap) (i : Nat) (uri : String)
    (hi : ¬ i < sorted.length - 1) : linkNextPhase sorted m1 i uri = m1 := by
  unfold linkNextPhase
  rw [if_neg hi]

theorem linkNextPhase_mid (sorted : List String) (m1 : NavMap) (i : Nat) (uri : String)
    (q v : NavElementView) (hi : i < sorted.length - 1)
    (hq : mapGet m1 (extractURI (sorted.getD (i + 1) "")) = some q)
    (hv : mapGet m1 uri = some v) :
    mapGet (linkNextPhase sorted m1 i uri) uri =
      some { v with NextLabel := q.ThisLabel, NextURI := q.ThisURI } := by
  unfold linkNextPhase
  rw [if_pos hi, hq]
  simp only [setNextFields, mapGet_mapModify, if_pos rfl, hv]
  rfl

theorem linkedNav_ThisLabel (m0 : NavMap) (us : List String) (len j : Nat) :
    (linkedNav m0 us len j).ThisLabel = (navAt m0 us j).ThisLabel := rfl

theorem linkedNav_ThisURI (m0 : NavMap) (us : List String) (len j : Nat) :
    (linkedNav m0 us len j).ThisURI = (navAt m0 us j).ThisURI := rfl

theorem linkAll_spec (sorted : List String) (m0 : NavMap)
    (hnd : (sorted.map extractURI).Nodup)
    (hmem : ∀ u ∈ sorted.map extractURI, mapGet m0 u ≠ none) :
    ∀ j, j < sorted.length →
      mapGet (linkAll sorted m0) ((sorted.map extractURI).getD j "") =
        some (linkedNav m0 (sorted.map extractURI) sorted.length j) := by
  have hlen : (sorted.map extractURI).length = sorted.length := List.length_map _ _
  have hvdef : ∀ t, t < sorted.length →
      mapGet m0 ((sorted.map extractURI).getD t "") =
        some (navAt m0 (sorted.map extractURI) t) := by
    intro t ht
    have hm : mapGet m0 ((sorted.map extractURI).getD t "") ≠ none :=
      hmem _ (getD_mem _ t (by omega))
    cases hx : mapGet m0 ((sorted.map extractURI).getD t "") with
    | none => exact absurd hx hm
    | some v => simp only [navAt, hx, Option.getD_some]
  have hne : ∀ a b, a < sorted.length → b < sorted.length → a ≠ b →
      (sorted.map extractURI).getD a "" ≠ (sorted.map extractURI).getD b "" := by
    intro a b ha hb hab
    exact nodup_getD_ne _ hnd a b (by omega) (by omega) hab
  suffices h : ∀ n, n ≤ sorted.length → ∀ j, j < sorted.length →
      (j < n → mapGet ((List.range n).foldl (linkStep sorted) m0)
          ((sorted.map extractURI).getD j "") =
        some (linkedNav m0 (sorted.map extractURI) sorted.length j)) ∧
      (n ≤ j → mapGet ((List.range n).foldl (linkStep sorted) m0)
          ((sorted.map extractURI).getD j "") =
        mapGet m0 ((sorted.map extractURI).getD j "")) by
    intro j hj
    exact (h sorted.length le_rfl j hj).1 hj
  intro n
  induction n with
  | zero =>
    intro _ j hj
    exact ⟨fun h0 => absurd h0 (Nat.not_lt_zero j), fun _ => rfl⟩
  | succ n ih =>
    intro hn j hj
    have hnlen : n < sorted.length := by omega
    have ihh := ih (by omega)
    have hA : (List.range (n+1)).foldl (linkStep sorted) m0 =
        linkStep sorted ((List.range n).foldl (linkStep sorted) m0) n := by
      rw [List.range_succ, List.foldl_append, List.foldl_cons, List.foldl_nil]
    rw [hA]
    have huri : extractURI (sorted.getD n "") = (sorted.map extractURI).getD n "" :=
      (extractURI_getD_map sorted n).symm
    rcases Nat.lt_trichotomy j n with hjn | hjn | hjn
    · constructor
      · intro _
        rw [linkStep_get_ne sorted _ n _ (by rw [huri]; exact hne n j hnlen hj (by omega))]
        exact (ihh j hj).1 hjn
      · intro hcon; omega
    · subst hjn
      refine ⟨fun _ => ?_, fun hcon => by omega⟩
      have hMj : mapGet ((List.range j).foldl (linkStep sorted) m0)
          ((sorted.map extractURI).getD j "") =
          some (navAt m0 (sorted.map extractURI) j) := by
        rw [(ihh j hj).2 le_rfl]
        exact hvdef j hj
      have hstep : linkStep sorted ((List.range j).foldl (linkStep sorted) m0) j =
          linkNextPhase sorted
            (linkPrevPhase sorted ((List.range j).foldl (linkStep sorted) m0) j
              ((sorted.map extractURI).getD j ""))
            j ((sorted.map extractURI).getD j "") := by
        simp only [linkStep, huri, hMj]
      rw [hstep]
      by_cases hj0 : j = 0
      · subst hj0
        rw [linkPrevPhase_zero]
        by_cases hlast : 0 < sorted.length - 1
        · have hq : mapGet ((List.range 0).foldl (linkStep sorted) m0)
              (extractURI (sorted.getD (0 + 1) "")) =
              some (navAt m0 (sorted.map extractURI) 1) := by
            rw [← extractURI_getD_map sorted (0 + 1)]
            rw [(ihh 1 (by omega)).2 (by omega)]
            exact hvdef 1 (by omega)
          rw [linkNextPhase_mid sorted _ 0 _ (navAt m0 (sorted.map extractURI) 1)
            (navAt m0 (sorted.map extractURI) 0) hlast hq hMj]
          have hcond : 0 + 1 < sorted.length := by omega
          simp [linkedNav, hcond]
        · rw [linkNextPhase_last sorted _ 0 _ hlast, hMj]
          have hcond : ¬ (0 + 1 < sorted.length) := by omega
          simp [linkedNav, hcond]
      · have hjpos : 0 < j := by omega
        have hp : mapGet ((List.range j).foldl (linkStep sorted) m0)
            (extractURI (sorted.getD (j - 1) "")) =
            some (linkedNav m0 (sorted.map extractURI) sorted.length (j - 1)) := by
          rw [← extractURI_getD_map sorted (j - 1)]
          exact (ihh (j - 1) (by omega)).1 (by omega)
        have hv1 := linkPrevPhase_pos sorted ((List.range j).foldl (linkStep sorted) m0) j
          ((sorted.map extractURI).getD j "")
          (linkedNav m0 (sorted.map extractURI) sorted.length (j - 1))
          (navAt m0 (sorted.map extractURI) j) hjpos hp hMj
        by_cases hlast : j < sorted.length - 1
        · have hq : mapGet (linkPrevPhase sorted ((List.range j).foldl (linkStep sorted) m0) j
              ((sorted.map extractURI).getD j ""))
              (extractURI (sorted.getD (j + 1) "")) =
              some (navAt m0 (sorted.map extractURI) (j + 1)) := by
            rw [← extractURI_getD_map sorted (j + 1)]
            rw [linkPrevPhase_ne _ _ _ _ _ (hne j (j+1) hj (by omega) (by omega))]
            rw [(ihh (j + 1) (by omega)).2 (by omega)]
            exact hvdef (j + 1) (by omega)
          rw [linkNextPhase_mid sorted _ j _ (navAt m0 (sorted.map extractURI) (j + 1)) _ hlast hq hv1]
          have hcond : j + 1 < sorted.length := by omega
          simp [linkedNav, hj0, hcond, linkedNav_ThisLabel, linkedNav_ThisURI]
        · rw [linkNextPhase_last sorted _ j _ hlast, hv1]
          have hcond : ¬ (j + 1 < sorted.length) := by omega
          simp [linkedNav, hj0, hcond, linkedNav_ThisLabel, linkedNav_ThisURI]
    · refine ⟨fun hcon => by omega, fun _ => ?_⟩
      rw [linkStep_get_ne sorted _ n _ (by rw [huri]; exact hne n j hnlen hj (by omega))]
      exact (ihh j hj).2 (by omega)

/-!  ## Claims C3, C4, C7, C10: the title index builder -/

theorem map_orderedInsert {α β : Type} (f : α → β) (r : β → β → Prop) [DecidableRel r]
    (a : α) (l : List α) :
    (List.orderedInsert (fun x y => r (f x) (f y)) a l).map f =
      List.orderedInsert r (f a) (l.map f) := by
  induction l with
  | nil => rfl
  | cons b l ih =>
    by_cases h : r (f a) (f b)
    · simp [List.orderedInsert, h]
    · simp [List.orderedInsert, h, ih]

theorem map_insertionSort {α β : Type} (f : α → β) (r : β → β → Prop) [DecidableRel r]
    (l : List α) :
    (List.insertionSort (fun x y => r (f x) (f y)) l).map f =
      List.insertionSort r (l.map f) := by
  induction l with
  | nil => rfl
  | cons a l ih =>
    simp only [List.insertionSort, List.map_cons]
    rw [map_orderedInsert, ih]

theorem make_ok_inv (files : List WalkFile) (m : NavMap)
    (h : MakeAccessionTitleIndex files = .ok m) :
    m = linkAll (sortStrings (walkAll files).2) (walkAll files).1 ∧
      keptAccessions files ≠ [] := by
  by_cases h1 : (walkAll files).2.length = 0
  · simp only [MakeAccessionTitleIndex, h1, if_pos, reduceIte] at h
    exact Except.noConfusion h
  · by_cases h2 : (walkAll files).1.length = 0
    · simp only [MakeAccessionTitleIndex, h1, h2, reduceIte] at h
      exact Except.noConfusion h
    · simp only [MakeAccessionTitleIndex, h1, h2, reduceIte, Except.ok.injEq] at h
      refine ⟨h.symm, ?_⟩
      intro hk
      rw [walkAll_eq files] at h1
      simp [hk] at h1

theorem kept_jsonmodel (files : List WalkFile) (r : AccessionProj)
    (hr : r ∈ keptAccessions files) : r.JSONModel = "accession" := by
  unfold keptAccessions at hr
  obtain ⟨f, hf, hcond⟩ := List.mem_filterMap.mp hr
  by_cases hc : (hasSuffix f.path ".json" && f.readOk && (f.decoded.JSONModel == "accession")) = true
  · rw [if_pos hc] at hcond
    cases hcond
    have := (Bool.and_eq_true _ _).mp hc
    exact beq_iff_eq.mp this.2
  · rw [if_neg hc] at hcond
    cases hcond

theorem getD_map_lt {α β : Type} (f : α → β) (l : List α) (i : Nat) (d : β) (d' : α)
    (h : i < l.length) : (l.map f).getD i d = f (l.getD i d') := by
  induction l generalizing i with
  | nil => simp at h
  | cons a l ih =>
    cases i with
    | zero => rfl
    | succ i => exact ih i (by simpa using h)

theorem sortedURIs_eq (files : List WalkFile)
    (hpipe : ∀ r ∈ keptAccessions files, '|' ∉ r.URI.data) :
    (sortStrings ((walkAll files).2)).map extractURI =
      (sortedKeptRecs files).map (fun r => r.URI) := by
  have h1 : (sortedKeptRecs files).map accessionKey =
      sortStrings ((keptAccessions files).map accessionKey) := by
    unfold sortedKeptRecs sortStrings
    exact map_insertionSort accessionKey strLe (keptAccessions files)
  rw [walkAll_eq files]
  simp only [← h1, List.map_map]
  apply List.map_congr_left
  intro r hr
  have hmem : r ∈ keptAccessions files := by
    have hperm : (sortedKeptRecs files).Perm (keptAccessions files) :=
      List.perm_insertionSort _ _
    exact hperm.mem_iff.mp hr
  exact extractURI_key r.Title r.URI (hpipe r hmem)

theorem phase1_fields (files : List WalkFile) (k : String) (v : NavElementView)
    (h : mapGet (walkAll files).1 k = some v) :
    v.ThisURI = k ∧ v.PrevURI = "" ∧ v.NextURI = "" := by
  rw [walkAll_eq files] at h
  exact foldl_goInsert_prop (fun k v => v.ThisURI = k ∧ v.PrevURI = "" ∧ v.NextURI = "")
    (keptAccessions files) [] (fun k v hh => by cases hh)
    (fun r _ => ⟨rfl, rfl, rfl⟩) k v h

theorem phase1_mem (files : List WalkFile) (r : AccessionProj)
    (hr : r ∈ keptAccessions files) : mapGet (walkAll files).1 r.URI ≠ none := by
  rw [walkAll_eq files]
  rw [Ne, foldl_goInsert_none_iff]
  intro hcon
  exact hcon.2 r hr rfl

/-- C4 (amended): in every title index returned successfully, assuming
all accession URIs are distinct AND no accession URI contains `"|"`,
every entry's `ThisURI` equals its map key; for entries adjacent in the
sorted order the earlier's `NextURI` equals the later's `ThisURI` and the
later's `PrevURI` equals the earlier's `ThisURI`; the first entry has
empty `PrevURI` and the last empty `NextURI`. -/
theorem c4_linked_invariant (files : List WalkFile) (m : NavMap)
    (hok : MakeAccessionTitleIndex files = .ok m)
    (hnd : ((keptAccessions files).map (fun r => r.URI)).Nodup)
    (hpipe : ∀ r ∈ keptAccessions files, '|' ∉ r.URI.data) :
    titleIndexLinked files m := by
  obtain ⟨hm, hkept⟩ := make_ok_inv files m hok
  have husr : (sortStrings ((walkAll files).2)).map extractURI =
      (sortedKeptRecs files).map (fun r => r.URI) := sortedURIs_eq files hpipe
  have hrs_perm : (sortedKeptRecs files).Perm (keptAccessions files) :=
    List.perm_insertionSort _ _
  have hlen1 : (sortStrings ((walkAll files).2)).length = (sortedKeptRecs files).length := by
    have h := congrArg List.length husr
    simpa using h
  have husnd : ((sortStrings ((walkAll files).2)).map extractURI).Nodup := by
    rw [husr]
    exact (hrs_perm.map (fun r => r.URI)).nodup_iff.mpr hnd
  have husmem : ∀ u ∈ (sortStrings ((walkAll files).2)).map extractURI,
      mapGet (walkAll files).1 u ≠ none := by
    intro u hu
    rw [husr] at hu
    obtain ⟨r, hr, rfl⟩ := List.mem_map.mp hu
    exact phase1_mem files r (hrs_perm.mem_iff.mp hr)
  have hspec := linkAll_spec (sortStrings ((walkAll files).2)) (walkAll files).1 husnd husmem
  have hgetD : ∀ i, i < (sortedKeptRecs files).length →
      ((sortStrings ((walkAll files).2)).map extractURI).getD i "" =
        ((sortedKeptRecs files).getD i default).URI := by
    intro i hi
    rw [husr]
    exact getD_map_lt (fun r => r.URI) (sortedKeptRecs files) i "" default hi
  have hval : ∀ i, i < (sortedKeptRecs files).length →
      mapGet m (((sortedKeptRecs files).getD i default).URI) =
        some (linkedNav (walkAll files).1
          ((sortStrings ((walkAll files).2)).map extractURI)
          (sortStrings ((walkAll files).2)).length i) := by
    intro i hi
    have h := hspec i (by omega)
    rw [hgetD i hi] at h
    rw [hm]
    exact h
  have hnav : ∀ t, t < (sortedKeptRecs files).length →
      (navAt (walkAll files).1 ((sortStrings ((walkAll files).2)).map extractURI) t).ThisURI =
        ((sortedKeptRecs files).getD t default).URI ∧
      (navAt (walkAll files).1 ((sortStrings ((walkAll files).2)).map extractURI) t).PrevURI = "" ∧
      (navAt (walkAll files).1 ((sortStrings ((walkAll files).2)).map extractURI) t).NextURI = "" := by
    intro t ht
    have hmm : mapGet (walkAll files).1
        (((sortStrings ((walkAll files).2)).map extractURI).getD t "") ≠ none := by
      apply husmem
      apply getD_mem
      rw [List.length_map]
      omega
    cases hx : mapGet (walkAll files).1
        (((sortStrings ((walkAll files).2)).map extractURI).getD t "") with
    | none => exact absurd hx hmm
    | some v =>
      have hf := phase1_fields files _ v hx
      have hv : navAt (walkAll files).1
          ((sortStrings ((walkAll files).2)).map extractURI) t = v := by
        simp only [navAt, hx, Option.getD_some]
      refine ⟨?_, ?_, ?_⟩
      · rw [hv, ← hgetD t ht]; exact hf.1
      · rw [hv]; exact hf.2.1
      · rw [hv]; exact hf.2.2
  refine ⟨?_, ?_, ?_⟩
  · intro k v hkv
    have ht := thisPart_linkFoldl (List.range (sortStrings ((walkAll files).2)).length)
      (sortStrings ((walkAll files).2)) (walkAll files).1 k
    have hlink : (List.range (sortStrings ((walkAll files).2)).length).foldl
        (linkStep (sortStrings ((walkAll files).2))) (walkAll files).1 =
        linkAll (sortStrings ((walkAll files).2)) (walkAll files).1 := rfl
    rw [hlink, ← hm, hkv] at ht
    cases hx : mapGet (walkAll files).1 k with
    | none => rw [hx] at ht; simp [thisPart] at ht
    | some w =>
      rw [hx] at ht
      have ht2 : (v.ThisLabel, v.ThisURI) = (w.ThisLabel, w.ThisURI) := by
        simpa [thisPart] using ht
      exact (congrArg Prod.snd ht2).trans (phase1_fields files k w hx).1
  · intro i hi
    refine ⟨_, _, hval i (by omega), hval (i + 1) hi, ?_, ?_⟩
    · have hcond : i + 1 < (sortStrings ((walkAll files).2)).length := by omega
      rw [linkedNav_ThisURI]
      show (if i + 1 < (sortStrings ((walkAll files).2)).length
          then (navAt (walkAll files).1
            ((sortStrings ((walkAll files).2)).map extractURI) (i + 1)).ThisURI
          else (navAt (walkAll files).1
            ((sortStrings ((walkAll files).2)).map extractURI) i).NextURI) = _
      rw [if_pos hcond]
    · rw [linkedNav_ThisURI]
      show (if i + 1 = 0
          then (navAt (walkAll files).1
            ((sortStrings ((walkAll files).2)).map extractURI) (i + 1)).PrevURI
          else (navAt (walkAll files).1
            ((sortStrings ((walkAll files).2)).map extractURI) (i + 1 - 1)).ThisURI) = _
      rw [if_neg (by omega)]
      simp only [Nat.add_sub_cancel]
  · intro hne0
    have hlen0 : 0 < (sortedKeptRecs files).length := List.length_pos.mpr hne0
    constructor
    · refine ⟨_, hval 0 hlen0, ?_⟩
      show (if 0 = 0
          then (navAt (walkAll files).1
            ((sortStrings ((walkAll files).2)).map extractURI) 0).PrevURI
          else (navAt (walkAll files).1
            ((sortStrings ((walkAll files).2)).map extractURI) (0 - 1)).ThisURI) = ""
      rw [if_pos rfl]
      exact (hnav 0 hlen0).2.1
    · refine ⟨_, hval ((sortedKeptRecs files).length - 1) (by omega), ?_⟩
      show (if (sortedKeptRecs files).length - 1 + 1 < (sortStrings ((walkAll files).2)).length
          then (navAt (walkAll files).1
            ((sortStrings ((walkAll files).2)).map extractURI)
            ((sortedKeptRecs files).length - 1 + 1)).ThisURI
          else (navAt (walkAll files).1
            ((sortStrings ((walkAll files).2)).map extractURI)
            ((sortedKeptRecs files).length - 1)).NextURI) = ""
      rw [if_neg (by omega)]
      exact (hnav ((sortedKeptRecs files).length - 1) (by omega)).2.2

/-- C4 witness: the linking invariant holds of the concrete three-record
index built from `filesC3`. -/
theorem c4_witness : titleIndexLinked filesC3 mC3 :=
  c4_linked_invariant filesC3 mC3 rfl (by decide) (by decide)

/-- C4 counterexample: URI distinctness alone is not enough. With URIs
`a|x` and `b` (distinct, equal titles), `extractURI` cuts `T|a|x` at its
last `"|"` and looks up `x`, which is not a key, so no prev/next field is
ever written and the adjacency invariant fails on the returned index. -/
theorem c4_counterexample :
    ((keptAccessions filesPipe).map (fun r => r.URI)).Nodup ∧
    MakeAccessionTitleIndex filesPipe = .ok mPipe ∧
    ¬ titleIndexLinked filesPipe mPipe := by
  refine ⟨by decide, rfl, ?_⟩
  intro h
  obtain ⟨v, w, hv, hw, hvw, hwv⟩ := h.2.1 0 (by decide)
  have h0 : ((sortedKeptRecs filesPipe).getD 0 default).URI = "a|x" := by decide
  have h1 : ((sortedKeptRecs filesPipe).getD 1 default).URI = "b" := by decide
  rw [h0] at hv
  rw [h1] at hw
  have hva : mapGet mPipe "a|x" =
      some { ThisLabel := "T", ThisURI := "a|x", PrevURI := "", PrevLabel := "",
             NextURI := "", NextLabel := "", Weight := 0 } := rfl
  have hwb : mapGet mPipe "b" =
      some { ThisLabel := "T", ThisURI := "b", PrevURI := "", PrevLabel := "",
             NextURI := "", NextLabel := "", Weight := 0 } := rfl
  rw [hva] at hv
  rw [hwb] at hw
  have hv' := Option.some.inj hv
  have hw' := Option.some.inj hw
  rw [← hv', ← hw'] at hvw
  exact absurd hvw (by decide)

/-- C3: the composite keys `Title ++ "|" ++ URI` are sorted by byte-wise
lexicographic string order (the result is `strLe`-sorted and a
permutation of the walk's keys); on the spec's three accessions titled
A, A, B with URIs /u2, /u1, /u3, the sorted key order is
`A|/u1, A|/u2, B|/u3` — ties broken by URI ascending — and the returned
index links /u1 -> /u2 -> /u3 accordingly. -/
theorem c3_sort_and_tiebreak :
    (∀ files : List WalkFile, (sortedTitles files).Sorted strLe ∧
      (sortedTitles files).Perm ((keptAccessions files).map accessionKey)) ∧
    sortedTitles filesC3 = ["A|/u1", "A|/u2", "B|/u3"] ∧
    MakeAccessionTitleIndex filesC3 = .ok mC3 := by
  refine ⟨fun files => ⟨?_, ?_⟩, rfl, rfl⟩
  · exact List.sorted_insertionSort strLe _
  · show (sortStrings ((walkAll files).2)).Perm _
    have hsnd : (walkAll files).2 = (keptAccessions files).map accessionKey := by
      rw [walkAll_eq files]
    rw [hsnd]
    exact List.perm_insertionSort strLe _

/-- C7: a walk that keeps zero accession records (no `.json` files, or
only records of other kinds such as `jsonmodel_type "subject"`) makes
`MakeAccessionTitleIndex` fail with the "No titles found" error rather
than return an empty map; and every key of a successful index is the URI
of some walked record whose `JSONModel` is exactly `"accession"`. -/
theorem c7_filtering_and_empty (files : List WalkFile) :
    (keptAccessions files = [] → MakeAccessionTitleIndex files = .error "No titles found") ∧
    (∀ m k, MakeAccessionTitleIndex files = .ok m → mapGet m k ≠ none →
      ∃ r, r ∈ keptAccessions files ∧ r.URI = k ∧ r.JSONModel = "accession") := by
  constructor
  · intro hk
    have h2 : (walkAll files).2.length = 0 := by
      have hsnd : (walkAll files).2 = (keptAccessions files).map accessionKey := by
        rw [walkAll_eq files]
      rw [hsnd, hk]
      rfl
    simp only [MakeAccessionTitleIndex, h2, reduceIte]
  · intro m k hok hmk
    obtain ⟨hm, _⟩ := make_ok_inv files m hok
    have hthis := thisPart_linkFoldl (List.range (sortStrings ((walkAll files).2)).length)
      (sortStrings ((walkAll files).2)) (walkAll files).1 k
    have hlink : (List.range (sortStrings ((walkAll files).2)).length).foldl
        (linkStep (sortStrings ((walkAll files).2))) (walkAll files).1 =
        linkAll (sortStrings ((walkAll files).2)) (walkAll files).1 := rfl
    rw [hlink, ← hm] at hthis
    have hm0 : ¬ mapGet (walkAll files).1 k = none := by
      intro hno
      rw [hno] at hthis
      cases hx : mapGet m k with
      | none => exact hmk hx
      | some v => rw [hx] at hthis; simp [thisPart] at hthis
    have hfold : (walkAll files).1 =
        (keptAccessions files).foldl (fun mm r => goInsert mm r.URI (freshNav r)) [] := by
      rw [walkAll_eq files]
    rw [hfold, foldl_goInsert_none_iff] at hm0
    push_neg at hm0
    obtain ⟨r, hr, hrk⟩ := hm0 rfl
    exact ⟨r, hr, hrk, kept_jsonmodel files r hr⟩

/-- C7 witness: the theorem applied to a directory with no `.json` files
(error), and to a walk holding one subject record and one accession
record (the subject's URI is absent from the index, the accession's URI
present). -/
theorem c7_witness :
    MakeAccessionTitleIndex filesNoJson = .error "No titles found" ∧
    (∃ r, r ∈ keptAccessions filesSubj ∧ r.URI = "/a1" ∧ r.JSONModel = "accession") ∧
    mapGet mSubj "/subj1" = none := by
  refine ⟨(c7_filtering_and_empty filesNoJson).1 rfl, ?_, ?_⟩
  · exact (c7_filtering_and_empty filesSubj).2 mSubj "/a1" rfl (by decide)
  · cases hx : mapGet mSubj "/subj1" with
    | none => rfl
    | some v =>
      obtain ⟨r, hr, hru, _⟩ := (c7_filtering_and_empty filesSubj).2 mSubj "/subj1" rfl
        (by rw [hx]; simp)
      have hks : keptAccessions filesSubj =
          [{ Title := "A", URI := "/a1", JSONModel := "accession" }] := rfl
      rw [hks] at hr
      have hr' : r = { Title := "A", URI := "/a1", JSONModel := "accession" } := by
        simpa using hr
      rw [hr'] at hru
      exact absurd hru (by decide)

/-- C10: `extractURI` recovers the substring after the last `"|"`, so for
any title `t` and `"|"`-free URI `u` it recovers `u` from `t ++ "|" ++ u`;
consequently, when no kept accession URI contains `"|"`, every sorted
composite key's extracted URI is a key of the phase-1 index, even when
titles themselves contain `"|"`. -/
theorem c10_extract_and_lookup (files : List WalkFile)
    (hpipe : ∀ r ∈ keptAccessions files, '|' ∉ r.URI.data) :
    (∀ t u : String, '|' ∉ u.data → extractURI (t ++ "|" ++ u) = u) ∧
    (∀ key ∈ sortStrings ((walkAll files).2),
      mapGet (walkAll files).1 (extractURI key) ≠ none) := by
  refine ⟨fun t u hu => extractURI_key t u hu, ?_⟩
  intro key hkey
  have hmemkeys : key ∈ (walkAll files).2 :=
    (List.perm_insertionSort strLe _).mem_iff.mp hkey
  have hsnd : (walkAll files).2 = (keptAccessions files).map accessionKey := by
    rw [walkAll_eq files]
  rw [hsnd] at hmemkeys
  obtain ⟨r, hr, rfl⟩ := List.mem_map.mp hmemkeys
  rw [show accessionKey r = r.Title ++ "|" ++ r.URI from rfl,
    extractURI_key r.Title r.URI (hpipe r hr)]
  exact phase1_mem files r hr

/-- C10 witness: the theorem applied to a walk whose first accession is
titled `A|B` — the separator inside the title does not break extraction
or the index lookups. -/
theorem c10_witness :
    extractURI ("A|B" ++ "|" ++ "/u1") = "/u1" ∧
    mapGet (walkAll filesPipeTitle).1 (extractURI "A|B|/u1") ≠ none := by
  have h := c10_extract_and_lookup filesPipeTitle (by decide)
  exact ⟨h.1 "A|B" "/u1" (by decide), h.2 "A|B|/u1" (by decide)⟩
